import Mathlib

/-!
Verification development for the sequali quality-control library.

The development shallowly embeds the parts of sequali that the checked
properties talk about.  `sequence_names_match` is translated from
`src/sequali/util.py`.  The statistics accumulators (DedupEstimator,
OverrepresentedSequences, AdapterCounter, FastqParser, PerTileQuality,
QCMetrics) live in the C extension module `_qc`, whose sources are not part
of this tree; those components are modelled from the design document, as
their doc comments state.  Sequences, names and byte streams are modelled
as `List Char` / `List Nat`.
-/

namespace Sequali

/-! ## Python string helpers -/

/-- Whitespace characters recognised by Python's `str.split()`, i.e.
CPython's `Py_UNICODE_ISSPACE`: the ASCII whitespace and separator range
(`\t`, `\n`, `\x0b`, `\x0c`, `\r`, `\x1c`-`\x1f`, space), next-line
(U+0085), no-break space (U+00A0), and the Unicode space separators
(U+1680, U+2000-U+200A, U+2028, U+2029, U+202F, U+205F, U+3000). -/
def isPySpace (c : Char) : Bool :=
  let n := c.toNat
  (9 ≤ n && n ≤ 13) || (28 ≤ n && n ≤ 31) || n = 32 || n = 133 || n = 160 ||
  n = 0x1680 || (0x2000 ≤ n && n ≤ 0x200A) || n = 0x2028 || n = 0x2029 ||
  n = 0x202F || n = 0x205F || n = 0x3000

/-- First whitespace-delimited token of a string, as computed by Python's
`name.split(maxsplit=1)[0]`.  `none` models the `IndexError` Python raises
when the split result is empty, i.e. when the string has no non-whitespace
character. -/
def firstToken (name : List Char) : Option (List Char) :=
  match name.dropWhile isPySpace with
  | [] => none
  | c :: rest => some ((c :: rest).takeWhile (fun ch => !isPySpace ch))

/-! ## sequence_names_match (src/src/sequali/util.py, lines 257-267) -/

/-- Embedding of `sequence_names_match` from `src/src/sequali/util.py`.
`none` models an uncaught `IndexError` (raised by `split(maxsplit=1)[0]`
on a whitespace-only name, or by `id[-1]` on an empty identifier);
`some b` models a normal boolean return. -/
def sequence_names_match (name1 name2 : List Char) : Option Bool :=
  match firstToken name1, firstToken name2 with
  | some id1, some id2 =>
    match id1.getLast?, id2.getLast? with
    | some c1, some c2 =>
      if (c1 = '1' && c2 = '2') || (c1 = '2' && c2 = '1') then
        some (id1.dropLast == id2.dropLast)
      else
        some (id1 == id2)
    | _, _ => none
  | _, _ => none

/-- Read-pair name matching as the specification words it: compare the first
whitespace-delimited tokens after ignoring a trailing `/1` or `/2` read
indicator.  Written from the specification for comparison against the
embedded `sequence_names_match`. -/
def stripSlashIndicator (id : List Char) : List Char :=
  match id.reverse with
  | '1' :: '/' :: rest => rest.reverse
  | '2' :: '/' :: rest => rest.reverse
  | _ => id

/-- Specification-side matching predicate for read-pair names: first tokens
equal after `stripSlashIndicator`. -/
def specNamesMatch (name1 name2 : List Char) : Option Bool :=
  match firstToken name1, firstToken name2 with
  | some id1, some id2 => some (stripSlashIndicator id1 == stripSlashIndicator id2)
  | _, _ => none

/-- Matching predicate that `sequence_names_match` actually implements on the
first tokens: tokens equal, or their final characters are `1` and `2` in
either order and the tokens agree after dropping only that final character. -/
def amendedNamesMatch (id1 id2 : List Char) : Bool :=
  id1 == id2 ||
    (((id1.getLastD ' ' = '1' && id2.getLastD ' ' = '2') ||
      (id1.getLastD ' ' = '2' && id2.getLastD ' ' = '1')) &&
     id1.dropLast == id2.dropLast)

lemma dropWhile_head_false {α : Type} (p : α → Bool) :
    ∀ (l : List α) (c : α) (rest : List α),
      List.dropWhile p l = c :: rest → p c = false := by
  intro l
  induction l with
  | nil => intro c rest h; exact absurd h (by simp)
  | cons x xs ih =>
    intro c rest h
    rw [List.dropWhile_cons] at h
    by_cases hx : p x
    · rw [if_pos hx] at h
      exact ih c rest h
    · rw [if_neg hx] at h
      obtain ⟨rfl, -⟩ := List.cons.inj h
      exact Bool.not_eq_true _ ▸ (by simpa using hx)

lemma firstToken_eq_some (name t : List Char) (h : firstToken name = some t) :
    ∃ c rest, name.dropWhile isPySpace = c :: rest ∧ isPySpace c = false ∧
      t = c :: rest.takeWhile (fun ch => !isPySpace ch) := by
  unfold firstToken at h
  cases hd : name.dropWhile isPySpace with
  | nil => rw [hd] at h; exact absurd h (by simp)
  | cons c rest =>
    rw [hd] at h
    have hc : isPySpace c = false := dropWhile_head_false isPySpace name c rest hd
    refine ⟨c, rest, rfl, hc, ?_⟩
    have ht : t = (c :: rest).takeWhile (fun ch => !isPySpace ch) :=
      (Option.some_inj.mp h).symm
    rw [ht, List.takeWhile_cons]
    simp [hc]

lemma firstToken_ne_nil (name t : List Char) (h : firstToken name = some t) :
    t ≠ [] := by
  obtain ⟨c, rest, _, _, ht⟩ := firstToken_eq_some name t h
  simp [ht]

/-- Claim C10: `sequence_names_match` is partial at the public boundary.  It
raises `IndexError` (modelled as `none`) exactly on arguments where one of
the names is empty or whitespace-only, and returns a boolean whenever both
names contain at least one non-whitespace character. -/
theorem sequence_names_match_partiality :
    (∀ name1 name2 : List Char,
      firstToken name1 = none ∨ firstToken name2 = none →
      sequence_names_match name1 name2 = none) ∧
    (∀ name1 name2 t1 t2 : List Char,
      firstToken name1 = some t1 → firstToken name2 = some t2 →
      ∃ b, sequence_names_match name1 name2 = some b) ∧
    (∀ name : List Char,
      firstToken name = none ↔ ∀ c ∈ name, isPySpace c = true) := by
  refine ⟨?_, ?_, ?_⟩
  · intro name1 name2 h
    unfold sequence_names_match
    rcases h with h | h
    · rw [h]
    · rw [h]
      cases firstToken name1 <;> rfl
  · intro name1 name2 t1 t2 h1 h2
    have hne1 := firstToken_ne_nil name1 t1 h1
    have hne2 := firstToken_ne_nil name2 t2 h2
    obtain ⟨c1, hc1⟩ := Option.isSome_iff_exists.mp
      (by rwa [List.getLast?_isSome] : t1.getLast?.isSome)
    obtain ⟨c2, hc2⟩ := Option.isSome_iff_exists.mp
      (by rwa [List.getLast?_isSome] : t2.getLast?.isSome)
    simp only [sequence_names_match, h1, h2, hc1, hc2]
    by_cases h : (c1 = '1' && c2 = '2') || (c1 = '2' && c2 = '1')
    · rw [if_pos h]; exact ⟨_, rfl⟩
    · rw [if_neg h]; exact ⟨_, rfl⟩
  · intro name
    unfold firstToken
    constructor
    · intro h c hc
      cases hd : name.dropWhile isPySpace with
      | nil => exact List.dropWhile_eq_nil_iff.mp hd c hc
      | cons x xs => rw [hd] at h; exact absurd h (by simp)
    · intro h
      rw [List.dropWhile_eq_nil_iff.mpr h]

/-- Witness for `sequence_names_match_partiality` at concrete inputs,
including a name made of the file-separator character `\x1c`, which
Python's `str.split()` treats as whitespace. -/
theorem sequence_names_match_partiality_witness :
    sequence_names_match (" ".toList) ("abc".toList) = none ∧
    sequence_names_match ("\x1c".toList) ("abc".toList) = none ∧
    ∃ b, sequence_names_match ("a".toList) ("b".toList) = some b :=
  ⟨sequence_names_match_partiality.1 (" ".toList) ("abc".toList)
      (Or.inl (by decide)),
   sequence_names_match_partiality.1 ("\x1c".toList) ("abc".toList)
      (Or.inl (by decide)),
   sequence_names_match_partiality.2.1 ("a".toList) ("b".toList)
      ("a".toList) ("b".toList) (by decide) (by decide)⟩

/-- Claim C9, counterexample: the repository test `test_names_are_mates`
expects names `same1` and `same2` to match, and `sequence_names_match`
indeed returns `True` for them, yet their first tokens are not equal after
ignoring a trailing `/1`/`/2` indicator (neither token carries one), so the
claims wording declares them non-matching. -/
theorem sequence_names_match_slash_counterexample :
    sequence_names_match ("same1".toList) ("same2".toList) = some true ∧
    specNamesMatch ("same1".toList) ("same2".toList) = some false := by
  constructor <;> decide

/-- Claim C9, amended: `sequence_names_match` returns `True` exactly when the
first whitespace-delimited tokens are equal, or when one token ends in the
character `1` and the other in `2` (in either order) and the tokens agree
after dropping only that final character; any preceding `/` stays part of
the comparison. -/
theorem sequence_names_match_amended (name1 name2 t1 t2 : List Char)
    (h1 : firstToken name1 = some t1) (h2 : firstToken name2 = some t2) :
    sequence_names_match name1 name2 = some (amendedNamesMatch t1 t2) := by
  have hne1 := firstToken_ne_nil name1 t1 h1
  have hne2 := firstToken_ne_nil name2 t2 h2
  obtain ⟨c1, hc1⟩ := Option.isSome_iff_exists.mp
    (by rwa [List.getLast?_isSome] : t1.getLast?.isSome)
  obtain ⟨c2, hc2⟩ := Option.isSome_iff_exists.mp
    (by rwa [List.getLast?_isSome] : t2.getLast?.isSome)
  have hd1 : t1.getLastD ' ' = c1 := by
    rw [List.getLastD_eq_getLast?, hc1]; rfl
  have hd2 : t2.getLastD ' ' = c2 := by
    rw [List.getLastD_eq_getLast?, hc2]; rfl
  simp only [sequence_names_match, amendedNamesMatch, h1, h2, hc1, hc2, hd1, hd2]
  by_cases h : (c1 = '1' && c2 = '2') || (c1 = '2' && c2 = '1')
  · rw [if_pos h]
    have hne : (t1 == t2) = false := by
      rcases Bool.or_eq_true_iff.mp h with hcase | hcase
      all_goals
        have h1' := (Bool.and_eq_true_iff.mp hcase).1
        have h2' := (Bool.and_eq_true_iff.mp hcase).2
        rw [decide_eq_true_iff] at h1' h2'
        refine beq_eq_false_iff_ne.mpr (fun heq => ?_)
        rw [heq, hc2] at hc1
        rw [h1', h2'] at hc1
        exact absurd (Option.some_inj.mp hc1) (by decide)
    rw [h, hne]
    simp
  · rw [if_neg h]
    have hb : ((c1 = '1' && c2 = '2') || (c1 = '2' && c2 = '1')) = false :=
      Bool.not_eq_true _ ▸ (by simpa using h)
    rw [hb]
    congr 1
    by_cases heq : t1 = t2
    · subst heq; simp
    · have : (t1 == t2) = false := beq_eq_false_iff_ne.mpr heq
      simp [this]

/-- Witness for `sequence_names_match_amended` at concrete inputs,
including a name whose first token is delimited by the file-separator
character `\x1c`, which Python's `str.split()` treats as whitespace. -/
theorem sequence_names_match_amended_witness :
    sequence_names_match ("pair/1 x".toList) ("pair/2 y".toList) =
      some (amendedNamesMatch ("pair/1".toList) ("pair/2".toList)) ∧
    sequence_names_match ("ab\x1cz".toList) ("ab".toList) =
      some (amendedNamesMatch ("ab".toList) ("ab".toList)) :=
  ⟨sequence_names_match_amended ("pair/1 x".toList) ("pair/2 y".toList)
      ("pair/1".toList) ("pair/2".toList) (by decide) (by decide),
   sequence_names_match_amended ("ab\x1cz".toList) ("ab".toList)
      ("ab".toList) ("ab".toList) (by decide) (by decide)⟩

/-! ## Counting association lists shared by the sketch components -/

/-- Lookup of a stored count by key in an association list of counts. -/
def lookupCount {K : Type} [DecidableEq K] (k : K) : List (K × Nat) → Option Nat
  | [] => none
  | (g, c) :: rest => if g = k then some c else lookupCount k rest

/-- Increment the count stored for `k` (first matching entry). -/
def bumpCount {K : Type} [DecidableEq K] (k : K) : List (K × Nat) → List (K × Nat)
  | [] => []
  | (g, c) :: rest => if g = k then (g, c + 1) :: rest else (g, c) :: bumpCount k rest

/-- The keys of a counting association list. -/
def keysOf {K : Type} (m : List (K × Nat)) : List K := m.map Prod.fst

lemma length_bumpCount {K : Type} [DecidableEq K] (k : K) (m : List (K × Nat)) :
    (bumpCount k m).length = m.length := by
  induction m with
  | nil => rfl
  | cons e rest ih =>
    obtain ⟨g, c⟩ := e
    by_cases h : g = k <;> simp [bumpCount, h, ih]

lemma keysOf_bumpCount {K : Type} [DecidableEq K] (k : K) (m : List (K × Nat)) :
    keysOf (bumpCount k m) = keysOf m := by
  induction m with
  | nil => rfl
  | cons e rest ih =>
    obtain ⟨g, c⟩ := e
    by_cases h : g = k <;> simp [bumpCount, keysOf, h] <;> exact ih

lemma lookupCount_bumpCount_self {K : Type} [DecidableEq K] (k : K)
    (m : List (K × Nat)) :
    lookupCount k (bumpCount k m) = (lookupCount k m).map (· + 1) := by
  induction m with
  | nil => rfl
  | cons e rest ih =>
    obtain ⟨g, c⟩ := e
    by_cases h : g = k <;> simp [bumpCount, lookupCount, h] <;> exact ih

lemma lookupCount_bumpCount_ne {K : Type} [DecidableEq K] {g k : K}
    (h : g ≠ k) (m : List (K × Nat)) :
    lookupCount k (bumpCount g m) = lookupCount k m := by
  induction m with
  | nil => rfl
  | cons e rest ih =>
    obtain ⟨x, c⟩ := e
    rw [bumpCount]
    by_cases hx : x = g
    · have hxk : ¬x = k := by rw [hx]; exact h
      rw [if_pos hx]
      simp only [lookupCount, if_neg hxk]
    · rw [if_neg hx]
      by_cases hk : x = k
      · simp only [lookupCount, if_pos hk]
      · simp only [lookupCount, if_neg hk]
        exact ih

lemma mem_keysOf_of_lookupCount {K : Type} [DecidableEq K] {k : K}
    {m : List (K × Nat)} {c : Nat} (h : lookupCount k m = some c) :
    k ∈ keysOf m := by
  induction m with
  | nil => exact absurd h (by simp [lookupCount])
  | cons e rest ih =>
    obtain ⟨g, c0⟩ := e
    by_cases hg : g = k
    · subst hg; simp [keysOf]
    · rw [lookupCount, if_neg hg] at h
      simp [keysOf]
      exact Or.inr (by simpa [keysOf] using ih h)

lemma lookupCount_isSome_of_mem {K : Type} [DecidableEq K] {k : K}
    {m : List (K × Nat)} (h : k ∈ keysOf m) :
    ∃ c, lookupCount k m = some c := by
  induction m with
  | nil => exact absurd h (by simp [keysOf])
  | cons e rest ih =>
    obtain ⟨g, c0⟩ := e
    by_cases hg : g = k
    · exact ⟨c0, by simp [lookupCount, hg]⟩
    · rw [keysOf] at h
      simp at h
      rcases h with h | h
      · exact absurd h.symm hg
      · rw [lookupCount, if_neg hg]
        exact ih (by simpa [keysOf] using h)

/-! ## DedupEstimator -/

/-- Modelled from the spec: `DedupEstimator` (design section 4.6) lives in the
C extension module `_qc`, whose sources are not in this tree.  The sketch
state is an open-addressed table of `2 ^ bits` slots holding
`(fingerprint, count)` entries, modelled here as the association list of its
occupied slots, together with the admission state `modulo_bits` (starting
at 0) and the global read counter.  The four window parameters configure the
fingerprint digest. -/
structure DedupEstimator where
  bits : Nat
  front_sequence_length : Nat
  front_sequence_offset : Nat
  back_sequence_length : Nat
  back_sequence_offset : Nat
  modulo_bits : Nat
  counter : Nat
  slots : List (Nat × Nat)

/-- Modelled from the spec: a freshly constructed estimator has an empty
table, `modulo_bits = 0` and a zero read counter. -/
def DedupEstimator.init (bits fl fo bl bo : Nat) : DedupEstimator :=
  ⟨bits, fl, fo, bl, bo, 0, 0, []⟩

/-- Modelled from the spec: the load-factor cap of roughly `0.7 · 2 ^ bits`
occupied slots. -/
def DedupEstimator.maxFingerprints (d : DedupEstimator) : Nat :=
  7 * 2 ^ d.bits / 10

/-- The number of occupied slots, exposed as `tracked_sequences`. -/
def DedupEstimator.tracked_sequences (d : DedupEstimator) : Nat :=
  d.slots.length

/-- Modelled from the spec: the fingerprint is a deterministic digest of a
configurable front window and back window of the sequence plus a length
bucket, hashed to a 64-bit value.  The exact hash is not specified; a
polynomial hash modulo `2 ^ 64` stands in, and fingerprint collisions are an
accepted approximation. -/
def log2Fuel : Nat → Nat → Nat
  | 0, _ => 0
  | fuel + 1, n => if n ≤ 1 then 0 else log2Fuel fuel (n / 2) + 1

/-- Binary-logarithm length bucket used by the fingerprint digest. -/
def lengthBucket (n : Nat) : Nat := log2Fuel n n

def fingerprint (fl fo bl bo : Nat) (s : List Char) : Nat :=
  let front := (s.drop fo).take fl
  let back := (s.reverse.drop bo).take bl
  (front ++ back).foldl (fun a c => (a * 31 + c.toNat) % 2 ^ 64)
    (lengthBucket (s.length + 1))

/-- Modelled from the spec: one `add_sequence`/`add_record` step on an
already-computed fingerprint.  The read is admitted only when
`counter % 2 ^ modulo_bits = 0`; an admitted present fingerprint has its
count bumped; an admitted absent one is inserted while the table is below
the load cap, and otherwise `modulo_bits` is incremented (halving future
admission) and the read is dropped without evicting anything.  The global
counter always advances. -/
def DedupEstimator.addFingerprint (d : DedupEstimator) (fp : Nat) :
    DedupEstimator :=
  if d.counter % 2 ^ d.modulo_bits = 0 then
    match lookupCount fp d.slots with
    | some _ =>
      { d with counter := d.counter + 1, slots := bumpCount fp d.slots }
    | none =>
      if d.slots.length < d.maxFingerprints then
        { d with counter := d.counter + 1, slots := (fp, 1) :: d.slots }
      else
        { d with counter := d.counter + 1, modulo_bits := d.modulo_bits + 1 }
  else
    { d with counter := d.counter + 1 }

/-- Modelled from the spec: `add_sequence` fingerprints the sequence with the
configured windows and feeds the digest to the sketch. -/
def DedupEstimator.add_sequence (d : DedupEstimator) (s : List Char) :
    DedupEstimator :=
  d.addFingerprint (fingerprint d.front_sequence_length d.front_sequence_offset
    d.back_sequence_length d.back_sequence_offset s)

/-- Fold `addFingerprint` over a list of fingerprints. -/
def DedupEstimator.addFingerprints (d : DedupEstimator) (fps : List Nat) :
    DedupEstimator :=
  fps.foldl DedupEstimator.addFingerprint d

/-- Fold `add_sequence` over a list of sequences. -/
def DedupEstimator.addSequences (d : DedupEstimator) (seqs : List (List Char)) :
    DedupEstimator :=
  seqs.foldl DedupEstimator.add_sequence d

lemma addFingerprint_config (d : DedupEstimator) (fp : Nat) :
    (d.addFingerprint fp).bits = d.bits ∧
    (d.addFingerprint fp).front_sequence_length = d.front_sequence_length ∧
    (d.addFingerprint fp).front_sequence_offset = d.front_sequence_offset ∧
    (d.addFingerprint fp).back_sequence_length = d.back_sequence_length ∧
    (d.addFingerprint fp).back_sequence_offset = d.back_sequence_offset := by
  unfold DedupEstimator.addFingerprint
  repeat' split
  all_goals exact ⟨rfl, rfl, rfl, rfl, rfl⟩

lemma addFingerprint_maxFingerprints (d : DedupEstimator) (fp : Nat) :
    (d.addFingerprint fp).maxFingerprints = d.maxFingerprints := by
  unfold DedupEstimator.maxFingerprints
  rw [(addFingerprint_config d fp).1]

lemma addFingerprint_tracked_le (d : DedupEstimator) (fp : Nat)
    (h : d.tracked_sequences ≤ d.maxFingerprints) :
    (d.addFingerprint fp).tracked_sequences ≤
      (d.addFingerprint fp).maxFingerprints := by
  rw [addFingerprint_maxFingerprints]
  unfold DedupEstimator.tracked_sequences at h ⊢
  unfold DedupEstimator.addFingerprint
  split
  · split
    · simpa [length_bumpCount] using h
    · split
      · simpa using (by assumption : d.slots.length < d.maxFingerprints)
      · exact h
  · exact h

lemma addFingerprint_modulo_le (d : DedupEstimator) (fp : Nat) :
    d.modulo_bits ≤ (d.addFingerprint fp).modulo_bits := by
  unfold DedupEstimator.addFingerprint
  repeat' split
  all_goals simp

lemma addFingerprint_mem_keys (d : DedupEstimator) (fp k : Nat)
    (h : k ∈ keysOf d.slots) : k ∈ keysOf (d.addFingerprint fp).slots := by
  unfold DedupEstimator.addFingerprint
  split
  · split
    · simpa [keysOf_bumpCount] using h
    · split
      · simpa [keysOf] using Or.inr (by simpa [keysOf] using h)
      · exact h
  · exact h

lemma addFingerprints_tracked_le (fps : List Nat) :
    ∀ d : DedupEstimator, d.tracked_sequences ≤ d.maxFingerprints →
      (d.addFingerprints fps).tracked_sequences ≤
        (d.addFingerprints fps).maxFingerprints := by
  induction fps with
  | nil => intro d h; exact h
  | cons fp rest ih =>
    intro d h
    exact ih (d.addFingerprint fp) (addFingerprint_tracked_le d fp h)

lemma addFingerprints_modulo_le (fps : List Nat) :
    ∀ d : DedupEstimator, d.modulo_bits ≤ (d.addFingerprints fps).modulo_bits := by
  induction fps with
  | nil => intro d; exact le_refl _
  | cons fp rest ih =>
    intro d
    exact le_trans (addFingerprint_modulo_le d fp) (ih (d.addFingerprint fp))

lemma addFingerprints_mem_keys (fps : List Nat) :
    ∀ (d : DedupEstimator) (k : Nat), k ∈ keysOf d.slots →
      k ∈ keysOf (d.addFingerprints fps).slots := by
  induction fps with
  | nil => intro d k h; exact h
  | cons fp rest ih =>
    intro d k h
    exact ih (d.addFingerprint fp) k (addFingerprint_mem_keys d fp k h)

lemma addFingerprints_maxFingerprints (fps : List Nat) :
    ∀ d : DedupEstimator,
      (d.addFingerprints fps).maxFingerprints = d.maxFingerprints := by
  induction fps with
  | nil => intro d; rfl
  | cons fp rest ih =>
    intro d
    rw [DedupEstimator.addFingerprints, List.foldl_cons]
    exact (ih (d.addFingerprint fp)).trans (addFingerprint_maxFingerprints d fp)

lemma addFingerprint_bump_eq (d : DedupEstimator) (fp : Nat) (c : Nat)
    (hcond : d.counter % 2 ^ d.modulo_bits = 0)
    (hl : lookupCount fp d.slots = some c) :
    (d.addFingerprint fp).slots = bumpCount fp d.slots ∧
    (d.addFingerprint fp).modulo_bits = d.modulo_bits := by
  unfold DedupEstimator.addFingerprint
  rw [if_pos hcond]
  simp only [hl]
  constructor <;> trivial

lemma addFingerprint_insert_eq (d : DedupEstimator) (fp : Nat)
    (hcond : d.counter % 2 ^ d.modulo_bits = 0)
    (hl : lookupCount fp d.slots = none)
    (hroom : d.slots.length < d.maxFingerprints) :
    (d.addFingerprint fp).slots = (fp, 1) :: d.slots ∧
    (d.addFingerprint fp).modulo_bits = d.modulo_bits := by
  unfold DedupEstimator.addFingerprint
  rw [if_pos hcond]
  simp only [hl]
  rw [if_pos hroom]
  constructor <;> trivial

lemma addFingerprint_full_eq (d : DedupEstimator) (fp : Nat)
    (hcond : d.counter % 2 ^ d.modulo_bits = 0)
    (hl : lookupCount fp d.slots = none)
    (hfull : ¬d.slots.length < d.maxFingerprints) :
    (d.addFingerprint fp).slots = d.slots ∧
    (d.addFingerprint fp).modulo_bits = d.modulo_bits + 1 := by
  unfold DedupEstimator.addFingerprint
  rw [if_pos hcond]
  simp only [hl]
  rw [if_neg hfull]
  constructor <;> trivial

lemma addFingerprints_all_mem_of_modulo_zero (fps : List Nat) :
    ∀ d : DedupEstimator, d.modulo_bits = 0 →
      (d.addFingerprints fps).modulo_bits = 0 →
      ∀ fp ∈ fps, fp ∈ keysOf (d.addFingerprints fps).slots := by
  induction fps with
  | nil => intro d _ _ fp h; exact absurd h (by simp)
  | cons f rest ih =>
    intro d hd hfin fp hmem
    have hstep : (d.addFingerprint f).modulo_bits = 0 := by
      have h1 := addFingerprint_modulo_le d f
      have h2 := addFingerprints_modulo_le rest (d.addFingerprint f)
      have h3 : (d.addFingerprints (f :: rest)).modulo_bits =
          ((d.addFingerprint f).addFingerprints rest).modulo_bits := rfl
      omega
    have hcond : d.counter % 2 ^ d.modulo_bits = 0 := by
      rw [hd, pow_zero, Nat.mod_one]
    rcases List.mem_cons.mp hmem with rfl | htail
    · have hin : fp ∈ keysOf (d.addFingerprint fp).slots := by
        cases hl : lookupCount fp d.slots with
        | some c =>
          rw [(addFingerprint_bump_eq d fp c hcond hl).1, keysOf_bumpCount]
          exact mem_keysOf_of_lookupCount hl
        | none =>
          by_cases hroom : d.slots.length < d.maxFingerprints
          · rw [(addFingerprint_insert_eq d fp hcond hl hroom).1]
            simp [keysOf]
          · exfalso
            have := (addFingerprint_full_eq d fp hcond hl hroom).2
            omega
      exact addFingerprints_mem_keys rest (d.addFingerprint fp) fp hin
    · exact ih (d.addFingerprint f) hstep hfin fp htail

lemma addSequences_eq_addFingerprints (seqs : List (List Char)) :
    ∀ d : DedupEstimator,
      d.addSequences seqs =
        d.addFingerprints (seqs.map (fingerprint d.front_sequence_length
          d.front_sequence_offset d.back_sequence_length
          d.back_sequence_offset)) := by
  induction seqs with
  | nil => intro d; rfl
  | cons s rest ih =>
    intro d
    have hs : d.add_sequence s = d.addFingerprint (fingerprint
        d.front_sequence_length d.front_sequence_offset
        d.back_sequence_length d.back_sequence_offset s) := rfl
    have h1 : d.addSequences (s :: rest) = (d.add_sequence s).addSequences
        rest := rfl
    have h2 : d.addFingerprints ((s :: rest).map (fingerprint
        d.front_sequence_length d.front_sequence_offset
        d.back_sequence_length d.back_sequence_offset)) =
        (d.addFingerprint (fingerprint d.front_sequence_length
          d.front_sequence_offset d.back_sequence_length
          d.back_sequence_offset s)).addFingerprints
          (rest.map (fingerprint d.front_sequence_length
            d.front_sequence_offset d.back_sequence_length
            d.back_sequence_offset)) := rfl
    rw [h1, h2, ih (d.add_sequence s), hs]
    have hcfg := addFingerprint_config d (fingerprint d.front_sequence_length
      d.front_sequence_offset d.back_sequence_length d.back_sequence_offset s)
    rw [hcfg.2.1, hcfg.2.2.1, hcfg.2.2.2.1, hcfg.2.2.2.2]

/-- Claim C1: over any sequence of `add_sequence` calls, `tracked_sequences`
never exceeds `0.7 · 2 ^ bits`; `modulo_bits` starts at 0 and is monotone
non-decreasing over any further calls; entries already stored are never
evicted; and once more distinct fingerprints have been offered than the
load-factor cap admits, `modulo_bits` has strictly increased at least
once. -/
theorem dedup_estimator_invariants (bits fl fo bl bo : Nat)
    (seqs : List (List Char)) :
    (10 * ((DedupEstimator.init bits fl fo bl bo).addSequences
        seqs).tracked_sequences ≤ 7 * 2 ^ bits) ∧
    (DedupEstimator.init bits fl fo bl bo).modulo_bits = 0 ∧
    (∀ (d : DedupEstimator) (more : List (List Char)),
      d.modulo_bits ≤ (d.addSequences more).modulo_bits) ∧
    (∀ (d : DedupEstimator) (k : Nat) (more : List (List Char)),
      k ∈ keysOf d.slots → k ∈ keysOf (d.addSequences more).slots) ∧
    ((DedupEstimator.init bits fl fo bl bo).maxFingerprints <
        (seqs.map (fingerprint fl fo bl bo)).toFinset.card →
      1 ≤ ((DedupEstimator.init bits fl fo bl bo).addSequences
        seqs).modulo_bits) := by
  have hinit : (DedupEstimator.init bits fl fo bl bo).modulo_bits = 0 := rfl
  have heq : (DedupEstimator.init bits fl fo bl bo).addSequences seqs =
      (DedupEstimator.init bits fl fo bl bo).addFingerprints
        (seqs.map (fingerprint fl fo bl bo)) :=
    addSequences_eq_addFingerprints seqs (DedupEstimator.init bits fl fo bl bo)
  refine ⟨?_, hinit, ?_, ?_, ?_⟩
  · rw [heq]
    have hbound := addFingerprints_tracked_le
      (seqs.map (fingerprint fl fo bl bo))
      (DedupEstimator.init bits fl fo bl bo) (by simp [DedupEstimator.init,
        DedupEstimator.tracked_sequences])
    have hmax := addFingerprints_maxFingerprints
      (seqs.map (fingerprint fl fo bl bo))
      (DedupEstimator.init bits fl fo bl bo)
    rw [hmax] at hbound
    have hcap : (DedupEstimator.init bits fl fo bl bo).maxFingerprints =
        7 * 2 ^ bits / 10 := rfl
    rw [hcap] at hbound
    calc 10 * ((DedupEstimator.init bits fl fo bl bo).addFingerprints
          (seqs.map (fingerprint fl fo bl bo))).tracked_sequences
        ≤ 10 * (7 * 2 ^ bits / 10) := Nat.mul_le_mul_left 10 hbound
      _ ≤ 7 * 2 ^ bits := by
          rw [Nat.mul_comm]
          exact Nat.div_mul_le_self (7 * 2 ^ bits) 10
  · intro d more
    rw [addSequences_eq_addFingerprints]
    exact addFingerprints_modulo_le _ d
  · intro d k more h
    rw [addSequences_eq_addFingerprints]
    exact addFingerprints_mem_keys _ d k h
  · intro hcard
    rw [heq]
    by_contra hlt
    have hzero : ((DedupEstimator.init bits fl fo bl bo).addFingerprints
        (seqs.map (fingerprint fl fo bl bo))).modulo_bits = 0 := by omega
    have hall := addFingerprints_all_mem_of_modulo_zero
      (seqs.map (fingerprint fl fo bl bo))
      (DedupEstimator.init bits fl fo bl bo) hinit hzero
    set dfin := (DedupEstimator.init bits fl fo bl bo).addFingerprints
      (seqs.map (fingerprint fl fo bl bo)) with hdfin
    have hsub : (seqs.map (fingerprint fl fo bl bo)).toFinset ⊆
        (keysOf dfin.slots).toFinset := by
      intro x hx
      rw [List.mem_toFinset] at hx ⊢
      exact hall x hx
    have hle : (seqs.map (fingerprint fl fo bl bo)).toFinset.card ≤
        dfin.tracked_sequences := by
      calc (seqs.map (fingerprint fl fo bl bo)).toFinset.card
          ≤ (keysOf dfin.slots).toFinset.card := Finset.card_le_card hsub
        _ ≤ (keysOf dfin.slots).length := List.toFinset_card_le _
        _ = dfin.tracked_sequences := by
            rw [keysOf, List.length_map]; rfl
    have htr := addFingerprints_tracked_le (seqs.map (fingerprint fl fo bl bo))
      (DedupEstimator.init bits fl fo bl bo) (by simp [DedupEstimator.init,
        DedupEstimator.tracked_sequences])
    rw [addFingerprints_maxFingerprints] at htr
    rw [← hdfin] at htr
    omega

/-- Witness for `dedup_estimator_invariants`: with one admissible slot
(`bits = 1`, cap `7·2/10 = 1`) and two sequences with distinct fingerprints,
`modulo_bits` ends at least 1, and a stored fingerprint survives later
calls. -/
theorem dedup_estimator_invariants_witness :
    1 ≤ ((DedupEstimator.init 1 1 0 1 0).addSequences
        ["A".toList, "B".toList]).modulo_bits ∧
    3041 ∈ keysOf (((DedupEstimator.init 1 1 0 1 0).addSequences
        ["A".toList]).addSequences ["B".toList]).slots :=
  ⟨(dedup_estimator_invariants 1 1 0 1 0 ["A".toList, "B".toList]).2.2.2.2
      (by decide),
   (dedup_estimator_invariants 1 1 0 1 0 ["A".toList]).2.2.2.1
      ((DedupEstimator.init 1 1 0 1 0).addSequences ["A".toList]) 3041
      ["B".toList] (by decide)⟩

/-! ## OverrepresentedSequences -/

/-- The length-`L` fragment of `l` starting at position `p`. -/
def extractFragment (l : List Char) (p L : Nat) : List Char :=
  (l.drop p).take L

/-- Modelled from the spec: the fragment start positions admitted by the
optional `bases_from_start`/`bases_from_end` windows (`0`/negative means the
whole read); a fragment is drawn from a window when it overlaps it. -/
def fragmentPositions (bfs bfe : Int) (len L : Nat) : List Nat :=
  (List.range (len + 1 - L)).filter (fun p =>
    (decide (bfs ≤ 0) && decide (bfe ≤ 0)) ||
    decide ((p : Int) < bfs) ||
    decide ((len : Int) - bfe ≤ (p : Int) + (L : Int)))

/-- Modelled from the spec: insert a fragment into the capacity-bounded
count map — bump a present fragment, insert an absent one while capacity
remains, silently drop otherwise. -/
def addFragment (cap : Nat) (m : List (List Char × Nat)) (f : List Char) :
    List (List Char × Nat) :=
  match lookupCount f m with
  | some _ => bumpCount f m
  | none => if m.length < cap then (f, 1) :: m else m

/-- Fold `addFragment` over the fragments of one read. -/
def processFragments (cap : Nat) (frs : List (List Char))
    (m : List (List Char × Nat)) : List (List Char × Nat) :=
  frs.foldl (addFragment cap) m

/-- Modelled from the spec: `OverrepresentedSequences` (design section 4.5)
lives in the C extension module `_qc`, whose sources are not in this tree.
State: configuration, global/sampled read counters, and the
capacity-bounded fragment count map. -/
structure OverrepresentedSequences where
  max_unique_fragments : Nat
  fragment_length : Nat
  sample_every : Nat
  bases_from_start : Int
  bases_from_end : Int
  number_of_sequences : Nat
  sampled_sequences : Nat
  total_fragments : Nat
  fragments : List (List Char × Nat)

/-- A freshly constructed sampler: zero counters, empty map. -/
def OverrepresentedSequences.mkInit (cap L N : Nat) (bfs bfe : Int) :
    OverrepresentedSequences :=
  ⟨cap, L, N, bfs, bfe, 0, 0, 0, []⟩

/-- The number of distinct fragments currently tracked. -/
def OverrepresentedSequences.collected_unique_fragments
    (s : OverrepresentedSequences) : Nat :=
  s.fragments.length

/-- The de-duplicated list of in-window fragments of one uppercased read. -/
def OverrepresentedSequences.enumFragments (s : OverrepresentedSequences)
    (up : List Char) : List (List Char) :=
  ((fragmentPositions s.bases_from_start s.bases_from_end up.length
      s.fragment_length).map (fun p => extractFragment up p s.fragment_length)).dedup

/-- All bases of an uppercased read lie in `{A, C, G, T, N}`. -/
def validBases (l : List Char) : Bool :=
  l.all (fun c => c = 'A' || c = 'C' || c = 'G' || c = 'T' || c = 'N')

/-- Modelled from the spec: `add_read` bumps the global counter, samples
every `sample_every`-th call (the first call always), uppercases the
sequence, skips reads with a base outside `{A, C, G, T, N}` (with a
non-fatal warning) and reads shorter than the fragment length, and
otherwise feeds all distinct in-window fragments to the bounded map. -/
def OverrepresentedSequences.add_read (s : OverrepresentedSequences)
    (read : List Char) : OverrepresentedSequences :=
  if s.number_of_sequences % s.sample_every = 0 then
    let up := read.map Char.toUpper
    let s1 := { s with number_of_sequences := s.number_of_sequences + 1,
                       sampled_sequences := s.sampled_sequences + 1 }
    if validBases up then
      if s.fragment_length ≤ read.length then
        let frs := s.enumFragments up
        { s1 with total_fragments := s1.total_fragments + frs.length,
                  fragments := processFragments s.max_unique_fragments frs
                    s.fragments }
      else s1
    else s1
  else
    { s with number_of_sequences := s.number_of_sequences + 1 }

/-- Fold `add_read` over a list of reads. -/
def OverrepresentedSequences.addReads (s : OverrepresentedSequences)
    (reads : List (List Char)) : OverrepresentedSequences :=
  reads.foldl OverrepresentedSequences.add_read s

lemma addFragment_eq_bump (cap : Nat) (m : List (List Char × Nat))
    (g : List Char) (c : Nat) (hl : lookupCount g m = some c) :
    addFragment cap m g = bumpCount g m := by
  unfold addFragment
  rw [hl]

lemma addFragment_eq_insert (cap : Nat) (m : List (List Char × Nat))
    (g : List Char) (hl : lookupCount g m = none)
    (hroom : m.length < cap) :
    addFragment cap m g = (g, 1) :: m := by
  unfold addFragment
  rw [hl]
  show (if m.length < cap then (g, 1) :: m else m) = (g, 1) :: m
  rw [if_pos hroom]

lemma addFragment_eq_skip (cap : Nat) (m : List (List Char × Nat))
    (g : List Char) (hl : lookupCount g m = none)
    (hfull : ¬m.length < cap) :
    addFragment cap m g = m := by
  unfold addFragment
  rw [hl]
  show (if m.length < cap then (g, 1) :: m else m) = m
  rw [if_neg hfull]

lemma keysOf_addFragment_full (cap : Nat) (m : List (List Char × Nat))
    (f : List Char) (hfull : ¬m.length < cap) :
    keysOf (addFragment cap m f) = keysOf m ∧
    (addFragment cap m f).length = m.length := by
  cases hl : lookupCount f m with
  | some c =>
    rw [addFragment_eq_bump cap m f c hl, keysOf_bumpCount, length_bumpCount]
    exact ⟨rfl, rfl⟩
  | none =>
    rw [addFragment_eq_skip cap m f hl hfull]
    exact ⟨rfl, rfl⟩

lemma keysOf_processFragments_full (cap : Nat) (frs : List (List Char)) :
    ∀ m : List (List Char × Nat), ¬m.length < cap →
      keysOf (processFragments cap frs m) = keysOf m ∧
      (processFragments cap frs m).length = m.length := by
  induction frs with
  | nil => intro m _; exact ⟨rfl, rfl⟩
  | cons f rest ih =>
    intro m hfull
    have hstep := keysOf_addFragment_full cap m f hfull
    have hrec := ih (addFragment cap m f) (by rw [hstep.2]; exact hfull)
    refine ⟨hrec.1.trans hstep.1, hrec.2.trans hstep.2⟩

lemma lookupCount_addFragment_ne (cap : Nat) (m : List (List Char × Nat))
    {g f : List Char} (h : g ≠ f) :
    lookupCount f (addFragment cap m g) = lookupCount f m := by
  cases hl : lookupCount g m with
  | some c =>
    rw [addFragment_eq_bump cap m g c hl]
    exact lookupCount_bumpCount_ne h m
  | none =>
    by_cases hroom : m.length < cap
    · rw [addFragment_eq_insert cap m g hl hroom]
      simp only [lookupCount]
      rw [if_neg h]
    · rw [addFragment_eq_skip cap m g hl hroom]

lemma lookupCount_addFragment_self (cap : Nat) (m : List (List Char × Nat))
    (f : List Char) (c : Nat) (hl : lookupCount f m = some c) :
    lookupCount f (addFragment cap m f) = some (c + 1) := by
  rw [addFragment_eq_bump cap m f c hl, lookupCount_bumpCount_self, hl]
  rfl

lemma keysOf_addFragment_sub (cap : Nat) (m : List (List Char × Nat))
    (g f : List Char) (h : f ∈ keysOf (addFragment cap m g)) :
    f ∈ keysOf m ∨ f = g := by
  cases hl : lookupCount g m with
  | some c =>
    rw [addFragment_eq_bump cap m g c hl, keysOf_bumpCount] at h
    exact Or.inl h
  | none =>
    by_cases hroom : m.length < cap
    · rw [addFragment_eq_insert cap m g hl hroom] at h
      rcases List.mem_cons.mp h with h | h
      · exact Or.inr h
      · exact Or.inl h
    · rw [addFragment_eq_skip cap m g hl hroom] at h
      exact Or.inl h

lemma mem_keysOf_addFragment (cap : Nat) (m : List (List Char × Nat))
    (g f : List Char) (h : f ∈ keysOf m) :
    f ∈ keysOf (addFragment cap m g) := by
  cases hl : lookupCount g m with
  | some c =>
    rw [addFragment_eq_bump cap m g c hl, keysOf_bumpCount]
    exact h
  | none =>
    by_cases hroom : m.length < cap
    · rw [addFragment_eq_insert cap m g hl hroom]
      exact List.mem_cons_of_mem _ h
    · rw [addFragment_eq_skip cap m g hl hroom]
      exact h

lemma keysOf_processFragments_sub (cap : Nat) (frs : List (List Char)) :
    ∀ (m : List (List Char × Nat)) (f : List Char),
      f ∈ keysOf (processFragments cap frs m) →
      f ∈ keysOf m ∨ f ∈ frs := by
  induction frs with
  | nil => intro m f h; exact Or.inl h
  | cons g rest ih =>
    intro m f h
    rcases ih (addFragment cap m g) f h with h1 | h1
    · rcases keysOf_addFragment_sub cap m g f h1 with h2 | h2
      · exact Or.inl h2
      · exact Or.inr (h2 ▸ List.mem_cons_self g rest)
    · exact Or.inr (List.mem_cons_of_mem g h1)

lemma lookupCount_processFragments (cap : Nat) (frs : List (List Char))
    (hnd : frs.Nodup) :
    ∀ (m : List (List Char × Nat)) (f : List Char) (c : Nat),
      lookupCount f m = some c →
      lookupCount f (processFragments cap frs m) =
        some (if f ∈ frs then c + 1 else c) := by
  induction frs with
  | nil => intro m f c h; simpa [processFragments] using h
  | cons g rest ih =>
    intro m f c h
    have hnd' : rest.Nodup := hnd.of_cons
    have hfold : processFragments cap (g :: rest) m =
        processFragments cap rest (addFragment cap m g) := rfl
    by_cases hgf : g = f
    · subst hgf
      have hstep := lookupCount_addFragment_self cap m g c h
      have hnot : g ∉ rest := (List.nodup_cons.mp hnd).1
      have hrec := ih hnd' (addFragment cap m g) g (c + 1) hstep
      rw [hfold, hrec, if_neg hnot, if_pos (List.mem_cons_self g rest)]
    · have hstep : lookupCount f (addFragment cap m g) = some c := by
        rw [lookupCount_addFragment_ne cap m hgf]; exact h
      have hrec := ih hnd' (addFragment cap m g) f c hstep
      rw [hfold, hrec]
      have hmemiff : f ∈ g :: rest ↔ f ∈ rest := by
        constructor
        · intro hm
          rcases List.mem_cons.mp hm with hm | hm
          · exact absurd hm.symm hgf
          · exact hm
        · exact List.mem_cons_of_mem g
      by_cases hf : f ∈ rest
      · rw [if_pos hf, if_pos (hmemiff.mpr hf)]
      · rw [if_neg hf, if_neg (fun hm => hf (hmemiff.mp hm))]

lemma add_read_config (s : OverrepresentedSequences) (r : List Char) :
    (s.add_read r).max_unique_fragments = s.max_unique_fragments ∧
    (s.add_read r).fragment_length = s.fragment_length ∧
    (s.add_read r).sample_every = s.sample_every ∧
    (s.add_read r).bases_from_start = s.bases_from_start ∧
    (s.add_read r).bases_from_end = s.bases_from_end := by
  unfold OverrepresentedSequences.add_read
  by_cases h1 : s.number_of_sequences % s.sample_every = 0
  · by_cases h2 : validBases (List.map Char.toUpper r) = true
    · by_cases h3 : s.fragment_length ≤ r.length
      · simp [h1, h2, h3]
      · simp [h1, h2, h3]
    · simp [h1, h2]
  · simp [h1]

lemma add_read_fragments_cases (s : OverrepresentedSequences) (r : List Char) :
    (s.add_read r).fragments = s.fragments ∨
    (s.add_read r).fragments = processFragments s.max_unique_fragments
      (s.enumFragments (r.map Char.toUpper)) s.fragments := by
  unfold OverrepresentedSequences.add_read
  by_cases h1 : s.number_of_sequences % s.sample_every = 0
  · by_cases h2 : validBases (List.map Char.toUpper r) = true
    · by_cases h3 : s.fragment_length ≤ r.length
      · exact Or.inr (by simp [h1, h2, h3])
      · exact Or.inl (by simp [h1, h2, h3])
    · exact Or.inl (by simp [h1, h2])
  · exact Or.inl (by simp [h1])

/-- Claim C2: once `collected_unique_fragments` equals
`max_unique_fragments`, every later `add_read` leaves the set of tracked
fragments (hence `collected_unique_fragments`) unchanged, while the stored
count of an already-tracked fragment that occurs among a sampled read's
in-window fragments still increases by one. -/
theorem overrepresented_capacity_frozen (s : OverrepresentedSequences)
    (hcap : s.collected_unique_fragments = s.max_unique_fragments) :
    (∀ reads : List (List Char),
      keysOf (s.addReads reads).fragments = keysOf s.fragments ∧
      (s.addReads reads).collected_unique_fragments =
        s.max_unique_fragments) ∧
    (∀ (r f : List Char) (c : Nat),
      lookupCount f s.fragments = some c →
      s.number_of_sequences % s.sample_every = 0 →
      validBases (r.map Char.toUpper) = true →
      s.fragment_length ≤ r.length →
      f ∈ s.enumFragments (r.map Char.toUpper) →
      lookupCount f (s.add_read r).fragments = some (c + 1)) := by
  have hfull : ¬s.fragments.length < s.max_unique_fragments := by
    rw [OverrepresentedSequences.collected_unique_fragments] at hcap
    omega
  constructor
  · intro reads
    induction reads generalizing s hcap hfull with
    | nil => exact ⟨rfl, hcap⟩
    | cons r rest ih =>
      have hstep : keysOf (s.add_read r).fragments = keysOf s.fragments ∧
          (s.add_read r).fragments.length = s.fragments.length := by
        rcases add_read_fragments_cases s r with h | h
        · rw [h]; exact ⟨rfl, rfl⟩
        · rw [h]
          exact keysOf_processFragments_full s.max_unique_fragments _
            s.fragments hfull
      have hcap' : (s.add_read r).collected_unique_fragments =
          (s.add_read r).max_unique_fragments := by
        rw [OverrepresentedSequences.collected_unique_fragments, hstep.2,
          (add_read_config s r).1]
        exact hcap
      have hfull' : ¬(s.add_read r).fragments.length <
          (s.add_read r).max_unique_fragments := by
        rw [hstep.2, (add_read_config s r).1]
        exact hfull
      have hrec := ih (s.add_read r) hcap' hfull'
      have haddr : s.addReads (r :: rest) = (s.add_read r).addReads rest := rfl
      rw [haddr]
      refine ⟨hrec.1.trans hstep.1, ?_⟩
      rw [hrec.2, (add_read_config s r).1]
  · intro r f c hl hsamp hvalid hlen hmem
    have hfr : (s.add_read r).fragments = processFragments
        s.max_unique_fragments (s.enumFragments (r.map Char.toUpper))
        s.fragments := by
      simp [OverrepresentedSequences.add_read, hsamp, hvalid, hlen]
    rw [hfr]
    have hnd : (s.enumFragments (r.map Char.toUpper)).Nodup :=
      List.nodup_dedup _
    have := lookupCount_processFragments s.max_unique_fragments _ hnd
      s.fragments f c hl
    rw [this, if_pos hmem]

/-- Witness for `overrepresented_capacity_frozen`: a sampler with capacity 1
saturated by read `A`; a later distinct read adds no key, and re-adding `A`
bumps its count to 2. -/
theorem overrepresented_capacity_frozen_witness :
    keysOf (((OverrepresentedSequences.mkInit 1 1 1 0 0).add_read
        "A".toList).addReads ["C".toList]).fragments =
      keysOf ((OverrepresentedSequences.mkInit 1 1 1 0 0).add_read
        "A".toList).fragments ∧
    lookupCount "A".toList (((OverrepresentedSequences.mkInit 1 1 1 0 0
        ).add_read "A".toList).add_read "A".toList).fragments = some 2 :=
  ⟨((overrepresented_capacity_frozen
      ((OverrepresentedSequences.mkInit 1 1 1 0 0).add_read "A".toList)
      (by decide)).1 ["C".toList]).1,
   (overrepresented_capacity_frozen
      ((OverrepresentedSequences.mkInit 1 1 1 0 0).add_read "A".toList)
      (by decide)).2 "A".toList "A".toList 1 (by decide) (by decide)
      (by decide) (by decide) (by decide)⟩

lemma mem_fragmentPositions_le {bfs bfe : Int} {len L p : Nat}
    (h : p ∈ fragmentPositions bfs bfe len L) : p + L ≤ len := by
  have hr : p ∈ List.range (len + 1 - L) := List.mem_of_mem_filter h
  have := List.mem_range.mp hr
  omega

lemma extractFragment_length {up : List Char} {p L : Nat}
    (h : p + L ≤ up.length) : (extractFragment up p L).length = L := by
  unfold extractFragment
  rw [List.length_take, List.length_drop]
  omega

lemma extractFragment_infix (up : List Char) (p L : Nat)
    (h : p + L ≤ up.length) :
    ∃ pre post, up = pre ++ extractFragment up p L ++ post := by
  refine ⟨up.take p, (up.drop p).drop L, ?_⟩
  unfold extractFragment
  rw [List.append_assoc, List.take_append_drop L (up.drop p),
    List.take_append_drop p up]

/-- Claim C8: for a sampled read whose uppercased bases are all valid and
whose length is at least the fragment length, the enumerated fragments are
exactly the extractions at the in-window start positions, each is a
length-`L` substring of the uppercased read, the enumeration is
de-duplicated per read, every key added by `add_read` comes from that
enumeration, and an already-tracked enumerated fragment is counted exactly
once for the read. -/
theorem overrepresented_fragment_enumeration (s : OverrepresentedSequences)
    (r : List Char)
    (hsamp : s.number_of_sequences % s.sample_every = 0)
    (hvalid : validBases (r.map Char.toUpper) = true)
    (hlen : s.fragment_length ≤ r.length) :
    (∀ f, f ∈ s.enumFragments (r.map Char.toUpper) ↔
      ∃ p, p ∈ fragmentPositions s.bases_from_start s.bases_from_end
          (r.map Char.toUpper).length s.fragment_length ∧
        extractFragment (r.map Char.toUpper) p s.fragment_length = f) ∧
    (∀ f, f ∈ s.enumFragments (r.map Char.toUpper) →
      f.length = s.fragment_length ∧
      ∃ pre post, r.map Char.toUpper = pre ++ f ++ post) ∧
    (s.enumFragments (r.map Char.toUpper)).Nodup ∧
    (∀ f, f ∈ keysOf (s.add_read r).fragments →
      f ∈ keysOf s.fragments ∨ f ∈ s.enumFragments (r.map Char.toUpper)) ∧
    (∀ f c, lookupCount f s.fragments = some c →
      f ∈ s.enumFragments (r.map Char.toUpper) →
      lookupCount f (s.add_read r).fragments = some (c + 1)) := by
  have hfr : (s.add_read r).fragments = processFragments
      s.max_unique_fragments (s.enumFragments (r.map Char.toUpper))
      s.fragments := by
    simp [OverrepresentedSequences.add_read, hsamp, hvalid, hlen]
  have hmem : ∀ f, f ∈ s.enumFragments (r.map Char.toUpper) ↔
      ∃ p, p ∈ fragmentPositions s.bases_from_start s.bases_from_end
          (r.map Char.toUpper).length s.fragment_length ∧
        extractFragment (r.map Char.toUpper) p s.fragment_length = f := by
    intro f
    unfold OverrepresentedSequences.enumFragments
    rw [List.mem_dedup, List.mem_map]
  refine ⟨hmem, ?_, List.nodup_dedup _, ?_, ?_⟩
  · intro f hf
    obtain ⟨p, hp, hext⟩ := (hmem f).mp hf
    have hple := mem_fragmentPositions_le hp
    refine ⟨?_, ?_⟩
    · rw [← hext]; exact extractFragment_length hple
    · rw [← hext]; exact extractFragment_infix _ p s.fragment_length hple
  · intro f hf
    rw [hfr] at hf
    exact keysOf_processFragments_sub s.max_unique_fragments _ s.fragments f hf
  · intro f c hl hf
    rw [hfr]
    have hnd : (s.enumFragments (r.map Char.toUpper)).Nodup :=
      List.nodup_dedup _
    rw [lookupCount_processFragments s.max_unique_fragments
      (s.enumFragments (r.map Char.toUpper)) hnd s.fragments f c hl,
      if_pos hf]

/-- Witness for `overrepresented_fragment_enumeration` at a concrete sampled
read `ACG` with fragment length 2. -/
theorem overrepresented_fragment_enumeration_witness :
    ("AC".toList.length = 2 ∧
      ∃ pre post, "ACG".toList.map Char.toUpper = pre ++ "AC".toList ++ post) ∧
    ("AC".toList ∈ keysOf [] ∨
      "AC".toList ∈ (OverrepresentedSequences.mkInit 10 2 1 0 0).enumFragments
        ("ACG".toList.map Char.toUpper)) :=
  ⟨(overrepresented_fragment_enumeration
      (OverrepresentedSequences.mkInit 10 2 1 0 0) "ACG".toList
      (by decide) (by decide) (by decide)).2.1 "AC".toList (by decide),
   (overrepresented_fragment_enumeration
      (OverrepresentedSequences.mkInit 10 2 1 0 0) "ACG".toList
      (by decide) (by decide) (by decide)).2.2.2.1 "AC".toList (by decide)⟩

/-! ## AdapterCounter -/

/-- Zero-extend a per-position count array to length `n`. -/
def growTo (l : List Nat) (n : Nat) : List Nat :=
  l ++ List.replicate (n - l.length) 0

/-- Increment the entry at index `i` (no-op past the end). -/
def setInc : List Nat → Nat → List Nat
  | [], _ => []
  | x :: xs, 0 => (x + 1) :: xs
  | x :: xs, n + 1 => x :: setInc xs n

/-- The adapter occurs in the read at start index `i` (exact, case-sensitive
substring match). -/
def occursAt (a read : List Char) (i : Nat) : Prop :=
  a <+: read.drop i

/-- Index of the leftmost exact occurrence of `a` in the read, if any. -/
def findLeftmost (a : List Char) : List Char → Option Nat
  | [] => if a = [] then some 0 else none
  | c :: rest =>
    if a.isPrefixOf (c :: rest) then some 0
    else (findLeftmost a rest).map (· + 1)

/-- Modelled from the spec: `AdapterCounter` (design section 4.3) lives in
the C extension module `_qc`, whose sources are not in this tree.  State:
the ordered adapter list, one growable per-position first-match count array
per adapter, and the read counter / maximum length bookkeeping. -/
structure AdapterCounter where
  adapters : List (List Char)
  counts : List (List Nat)
  number_of_sequences : Nat
  max_length : Nat

/-- A freshly constructed counter: one empty count array per adapter. -/
def AdapterCounter.mkInit (adapters : List (List Char)) : AdapterCounter :=
  ⟨adapters, adapters.map (fun _ => []), 0, 0⟩

/-- Modelled from the spec: per-read update of one adapter's array — grow it
zero-filled to the read length, then increment only at the leftmost exact
match start index; an absent adapter contributes nothing. -/
def updateCounts (a : List Char) (cnt : List Nat) (read : List Char) :
    List Nat :=
  match findLeftmost a read with
  | none => growTo cnt read.length
  | some i => setInc (growTo cnt read.length) i

/-- Modelled from the spec: `add_read` updates every adapter's array on the
record's sequence. -/
def AdapterCounter.add_read (s : AdapterCounter) (read : List Char) :
    AdapterCounter :=
  { s with
    counts := List.zipWith (fun a cnt => updateCounts a cnt read)
      s.adapters s.counts,
    number_of_sequences := s.number_of_sequences + 1,
    max_length := max s.max_length read.length }

/-- Per-adapter view exposed by `get_counts`. -/
def AdapterCounter.get_counts (s : AdapterCounter) :
    List (List Char × List Nat) :=
  s.adapters.zip s.counts

lemma sum_growTo (l : List Nat) (n : Nat) : (growTo l n).sum = l.sum := by
  unfold growTo
  rw [List.sum_append, List.sum_replicate]
  simp

lemma length_growTo (l : List Nat) (n : Nat) :
    (growTo l n).length = max l.length n := by
  unfold growTo
  rw [List.length_append, List.length_replicate]
  omega

lemma length_setInc : ∀ (l : List Nat) (i : Nat), (setInc l i).length = l.length
  | [], _ => rfl
  | _ :: xs, 0 => rfl
  | _ :: xs, n + 1 => by
    rw [setInc, List.length_cons, List.length_cons, length_setInc xs n]

lemma sum_setInc : ∀ (l : List Nat) (i : Nat), i < l.length →
    (setInc l i).sum = l.sum + 1 := by
  intro l
  induction l with
  | nil => intro i h; exact absurd h (by simp)
  | cons x xs ih =>
    intro i h
    cases i with
    | zero => rw [setInc]; simp; omega
    | succ n =>
      rw [setInc, List.sum_cons, List.sum_cons,
        ih n (by simpa using Nat.lt_of_succ_lt_succ h)]
      omega

lemma get?_setInc_self : ∀ (l : List Nat) (i : Nat), i < l.length →
    (setInc l i).get? i = (l.get? i).map (· + 1) := by
  intro l
  induction l with
  | nil => intro i h; exact absurd h (by simp)
  | cons x xs ih =>
    intro i h
    cases i with
    | zero => rfl
    | succ n =>
      rw [setInc]
      exact ih n (by simpa using Nat.lt_of_succ_lt_succ h)

lemma get?_setInc_ne : ∀ (l : List Nat) (i j : Nat), j ≠ i →
    (setInc l i).get? j = l.get? j := by
  intro l
  induction l with
  | nil => intro i j h; rfl
  | cons x xs ih =>
    intro i j h
    cases i with
    | zero =>
      cases j with
      | zero => exact absurd rfl h
      | succ m => rfl
    | succ n =>
      cases j with
      | zero => rfl
      | succ m =>
        rw [setInc]
        exact ih n m (fun hh => h (by rw [hh]))

lemma findLeftmost_some (a : List Char) : ∀ (read : List Char) (i : Nat),
    findLeftmost a read = some i →
    occursAt a read i ∧ ∀ j < i, ¬occursAt a read j := by
  intro read
  induction read with
  | nil =>
    intro i h
    rw [findLeftmost] at h
    by_cases ha : a = []
    · rw [if_pos ha] at h
      obtain rfl : (0 : Nat) = i := Option.some_inj.mp h
      exact ⟨by rw [ha]; exact List.nil_prefix, by omega⟩
    · rw [if_neg ha] at h
      exact absurd h (by simp)
  | cons c rest ih =>
    intro i h
    rw [findLeftmost] at h
    by_cases hp : a.isPrefixOf (c :: rest)
    · rw [if_pos hp] at h
      obtain rfl : (0 : Nat) = i := Option.some_inj.mp h
      exact ⟨List.isPrefixOf_iff_prefix.mp hp, by omega⟩
    · rw [if_neg hp] at h
      cases hrec : findLeftmost a rest with
      | none => rw [hrec] at h; exact absurd h (by simp)
      | some n =>
        rw [hrec] at h
        obtain rfl : n + 1 = i := Option.some_inj.mp h
        obtain ⟨h1, h2⟩ := ih n hrec
        refine ⟨h1, ?_⟩
        intro j hj
        cases j with
        | zero =>
          intro hocc
          exact hp (List.isPrefixOf_iff_prefix.mpr hocc)
        | succ m =>
          intro hocc
          exact h2 m (by omega) hocc

lemma findLeftmost_none (a : List Char) : ∀ read : List Char,
    findLeftmost a read = none → ∀ j, ¬occursAt a read j := by
  intro read
  induction read with
  | nil =>
    intro h j hocc
    rw [findLeftmost] at h
    by_cases ha : a = []
    · rw [if_pos ha] at h; exact absurd h (by simp)
    · rw [if_neg ha] at h
      unfold occursAt at hocc
      rw [List.drop_nil] at hocc
      exact ha (List.prefix_nil.mp hocc)
  | cons c rest ih =>
    intro h j hocc
    rw [findLeftmost] at h
    by_cases hp : a.isPrefixOf (c :: rest)
    · rw [if_pos hp] at h; exact absurd h (by simp)
    · rw [if_neg hp] at h
      cases hrec : findLeftmost a rest with
      | some n => rw [hrec] at h; exact absurd h (by simp)
      | none =>
        cases j with
        | zero => exact hp (List.isPrefixOf_iff_prefix.mpr hocc)
        | succ m => exact ih hrec m hocc

/-- Claim C3: `add_read` increments an adapter's per-position array only at
the start index of its leftmost exact case-sensitive occurrence and
increments nothing for an absent adapter; on
`AdapterCounter(["GATTACA", "GGGG", "TTTTT"])` fed
`"AAGATTACAAAAAGATTACAGGGGAACGAGGGG"`, GATTACA's array sums to 1 with its
count at index 2, GGGG's sums to 1, and TTTTT's sums to 0. -/
theorem adapter_counter_leftmost :
    (∀ (a read : List Char) (cnt : List Nat), a ≠ [] →
      (∀ i, findLeftmost a read = some i →
        occursAt a read i ∧ (∀ j < i, ¬occursAt a read j) ∧
        (updateCounts a cnt read).sum = cnt.sum + 1 ∧
        (updateCounts a cnt read).get? i =
          ((growTo cnt read.length).get? i).map (· + 1) ∧
        ∀ j, j ≠ i →
          (updateCounts a cnt read).get? j =
            (growTo cnt read.length).get? j) ∧
      (findLeftmost a read = none →
        (∀ j, ¬occursAt a read j) ∧
        updateCounts a cnt read = growTo cnt read.length ∧
        (updateCounts a cnt read).sum = cnt.sum)) ∧
    (((((AdapterCounter.mkInit ["GATTACA".toList, "GGGG".toList,
          "TTTTT".toList]).add_read
          "AAGATTACAAAAAGATTACAGGGGAACGAGGGG".toList).counts.get? 0).getD
          []).sum = 1 ∧
      ((((AdapterCounter.mkInit ["GATTACA".toList, "GGGG".toList,
          "TTTTT".toList]).add_read
          "AAGATTACAAAAAGATTACAGGGGAACGAGGGG".toList).counts.get? 0).getD
          []).get? 2 = some 1 ∧
      ((((AdapterCounter.mkInit ["GATTACA".toList, "GGGG".toList,
          "TTTTT".toList]).add_read
          "AAGATTACAAAAAGATTACAGGGGAACGAGGGG".toList).counts.get? 1).getD
          []).sum = 1 ∧
      ((((AdapterCounter.mkInit ["GATTACA".toList, "GGGG".toList,
          "TTTTT".toList]).add_read
          "AAGATTACAAAAAGATTACAGGGGAACGAGGGG".toList).counts.get? 2).getD
          []).sum = 0) := by
  constructor
  · intro a read cnt ha
    constructor
    · intro i hfind
      obtain ⟨hocc, hmin⟩ := findLeftmost_some a read i hfind
      have hilen : i < read.length := by
        have hlen := hocc.length_le
        rw [List.length_drop] at hlen
        have hapos : 0 < a.length := List.length_pos.mpr ha
        omega
      have higrown : i < (growTo cnt read.length).length := by
        rw [length_growTo]; omega
      have hupd : updateCounts a cnt read =
          setInc (growTo cnt read.length) i := by
        unfold updateCounts
        rw [hfind]
      refine ⟨hocc, hmin, ?_, ?_, ?_⟩
      · rw [hupd, sum_setInc _ i higrown, sum_growTo]
      · rw [hupd]
        exact get?_setInc_self _ i higrown
      · intro j hj
        rw [hupd]
        exact get?_setInc_ne _ i j hj
    · intro hfind
      have hupd : updateCounts a cnt read = growTo cnt read.length := by
        unfold updateCounts
        rw [hfind]
      exact ⟨findLeftmost_none a read hfind, hupd,
        by rw [hupd, sum_growTo]⟩
  · refine ⟨by decide, by decide, by decide, by decide⟩

/-- Witness for `adapter_counter_leftmost` at a concrete adapter and read. -/
theorem adapter_counter_leftmost_witness :
    occursAt "GG".toList "AGG".toList 1 ∧
    (updateCounts "GG".toList [] "AGG".toList).sum = List.sum [] + 1 ∧
    (updateCounts "TT".toList [] "AGG".toList).sum = List.sum [] :=
  ⟨((adapter_counter_leftmost.1 "GG".toList "AGG".toList [] (by decide)).1
      1 (by decide)).1,
   ((adapter_counter_leftmost.1 "GG".toList "AGG".toList [] (by decide)).1
      1 (by decide)).2.2.1,
   ((adapter_counter_leftmost.1 "TT".toList "AGG".toList [] (by decide)).2
      (by decide)).2.2⟩

/-! ## FastqParser -/

/-- A parsed FASTQ record: name (without the leading `@`), sequence and
quality bytes. -/
structure FastqRecord where
  name : List Nat
  sequence : List Nat
  qualities : List Nat
deriving DecidableEq

/-- Typed parse errors of the FASTQ parser, each carrying the offending
bytes. -/
inductive FastqError where
  | truncated (partialRecord : List Nat)
  | noAtSign (line : List Nat)
  | noPlusSign (line : List Nat)
  | lengthMismatch (sequence qualities : List Nat)
  | nonAscii (record : List Nat)
deriving DecidableEq

/-- Split the stream at the first newline byte (10); `none` when the stream
ends before a newline. -/
def takeLine : List Nat → Option (List Nat × List Nat)
  | [] => none
  | b :: rest =>
    if b = 10 then some ([], rest)
    else (takeLine rest).map (fun p => (b :: p.1, p.2))

/-- All bytes are ASCII. -/
def allAscii (l : List Nat) : Bool := l.all (fun b => b < 128)

/-- Modelled from the spec: quality-line stage of one record — the fourth
line must be newline-terminated, the sequence and quality lengths must
match, and all record bytes must be ASCII. -/
def parseQual (b l1 l2 l3 r3 : List Nat) :
    Except FastqError (FastqRecord × List Nat) :=
  match takeLine r3 with
  | none => .error (.truncated b)
  | some (l4, r4) =>
    if l2.length ≠ l4.length then .error (.lengthMismatch l2 l4)
    else if allAscii (l1 ++ l2 ++ l3 ++ l4) = false then
      .error (.nonAscii (l1 ++ l2 ++ l3 ++ l4))
    else .ok (⟨l1.tail, l2, l4⟩, r4)

/-- Modelled from the spec: third-line stage of one record — the separator
line must start with `+` (43); a stream ending exactly here is truncated. -/
def parsePlus (b l1 l2 r2 : List Nat) :
    Except FastqError (FastqRecord × List Nat) :=
  if r2.head? = some 43 then
    match takeLine r2 with
    | none => .error (.truncated b)
    | some (l3, r3) => parseQual b l1 l2 l3 r3
  else if r2 = [] then .error (.truncated b)
  else .error (.noPlusSign (r2.takeWhile (fun x => x ≠ 10)))

/-- Modelled from the spec: sequence-line stage of one record. -/
def parseSeq (b l1 r1 : List Nat) :
    Except FastqError (FastqRecord × List Nat) :=
  match takeLine r1 with
  | none => .error (.truncated b)
  | some (l2, r2) => parsePlus b l1 l2 r2

/-- Modelled from the spec: parse one FASTQ record from the head of the
stream (4 newline-terminated lines).  The name line must start with `@`
(64); any truncation yields an `incomplete record` error carrying the whole
partial record. -/
def parseRecord (b : List Nat) :
    Except FastqError (FastqRecord × List Nat) :=
  if b.head? = some 64 then
    match takeLine b with
    | none => .error (.truncated b)
    | some (l1, r1) => parseSeq b l1 r1
  else .error (.noAtSign (b.takeWhile (fun x => x ≠ 10)))

/-- Modelled from the spec: parse the whole stream into records (fuelled;
`parseAll` supplies sufficient fuel). -/
def parseAllAux : Nat → List Nat → Except FastqError (List FastqRecord)
  | _, [] => .ok []
  | 0, c :: rest => .error (.truncated (c :: rest))
  | fuel + 1, c :: rest =>
    match parseRecord (c :: rest) with
    | .error e => .error e
    | .ok (r, remaining) =>
      match parseAllAux fuel remaining with
      | .error e => .error e
      | .ok rs => .ok (r :: rs)

/-- Full iteration over the stream. -/
def parseAll (b : List Nat) : Except FastqError (List FastqRecord) :=
  parseAllAux b.length b

/-- Modelled from the spec: `read(n)` — pull up to `n` records from the
stream, returning them with the unconsumed remainder. -/
def readRecords : Nat → List Nat → Except FastqError (List FastqRecord × List Nat)
  | 0, b => .ok ([], b)
  | _ + 1, [] => .ok ([], [])
  | n + 1, c :: rest =>
    match parseRecord (c :: rest) with
    | .error e => .error e
    | .ok (r, remaining) =>
      match readRecords n remaining with
      | .error e => .error e
      | .ok (rs, rem2) => .ok (r :: rs, rem2)

/-- Repeated `read(1)` until a call returns no records (fuelled). -/
def drainByOnes : Nat → List Nat → Except FastqError (List FastqRecord)
  | 0, b => if b = [] then .ok [] else .error (.truncated b)
  | fuel + 1, b =>
    match readRecords 1 b with
    | .error e => .error e
    | .ok ([], _) => .ok []
    | .ok (r :: _, rem) =>
      match drainByOnes fuel rem with
      | .error e => .error e
      | .ok rs => .ok (r :: rs)

lemma takeLine_append (l rest : List Nat) (h : 10 ∉ l) :
    takeLine (l ++ 10 :: rest) = some (l, rest) := by
  induction l with
  | nil => simp [takeLine]
  | cons c cs ih =>
    have hc : c ≠ 10 := fun hh => h (by rw [hh]; exact List.mem_cons_self _ _)
    have hcs : 10 ∉ cs := fun hm => h (List.mem_cons_of_mem _ hm)
    rw [List.cons_append, takeLine, if_neg hc, ih hcs]
    rfl

lemma takeLine_no_newline (l : List Nat) (h : 10 ∉ l) : takeLine l = none := by
  induction l with
  | nil => rfl
  | cons c cs ih =>
    have hc : c ≠ 10 := fun hh => h (by rw [hh]; exact List.mem_cons_self _ _)
    have hcs : 10 ∉ cs := fun hm => h (List.mem_cons_of_mem _ hm)
    rw [takeLine, if_neg hc, ih hcs]
    rfl

lemma cons_append_head (x : Nat) (l rest : List Nat) :
    ((x :: l) ++ rest).head? = some x := by
  rw [List.cons_append]
  rfl

lemma parseRecord_at (n rest : List Nat) (hn : 10 ∉ n) :
    parseRecord ((64 :: n) ++ 10 :: rest) =
      parseSeq ((64 :: n) ++ 10 :: rest) (64 :: n) rest := by
  unfold parseRecord
  rw [if_pos (cons_append_head 64 n (10 :: rest))]
  rw [takeLine_append (64 :: n) rest (by simp [hn])]

lemma parseRecord_at_trunc (n : List Nat) (hn : 10 ∉ n) :
    parseRecord (64 :: n) = .error (.truncated (64 :: n)) := by
  unfold parseRecord
  rw [if_pos (show (64 :: n).head? = some 64 from rfl)]
  rw [takeLine_no_newline (64 :: n) (by simp [hn])]

lemma parseRecord_no_at (c : Nat) (rest : List Nat) (hc : c ≠ 64) :
    parseRecord (c :: rest) =
      .error (.noAtSign ((c :: rest).takeWhile (fun x => x ≠ 10))) := by
  unfold parseRecord
  rw [if_neg (by simp [hc])]

lemma parseSeq_line (b l1 l2 r2 : List Nat) (h2 : 10 ∉ l2) :
    parseSeq b l1 (l2 ++ 10 :: r2) = parsePlus b l1 l2 r2 := by
  unfold parseSeq
  rw [takeLine_append l2 r2 h2]

lemma parseSeq_trunc (b l1 r1 : List Nat) (h : 10 ∉ r1) :
    parseSeq b l1 r1 = .error (.truncated b) := by
  unfold parseSeq
  rw [takeLine_no_newline r1 h]

lemma parsePlus_line (b l1 l2 p3 r3 : List Nat) (h3 : 10 ∉ p3) :
    parsePlus b l1 l2 ((43 :: p3) ++ 10 :: r3) =
      parseQual b l1 l2 (43 :: p3) r3 := by
  unfold parsePlus
  rw [if_pos (cons_append_head 43 p3 (10 :: r3))]
  rw [takeLine_append (43 :: p3) r3 (by simp [h3])]

lemma parsePlus_trunc (b l1 l2 p3 : List Nat) (h3 : 10 ∉ p3) :
    parsePlus b l1 l2 (43 :: p3) = .error (.truncated b) := by
  unfold parsePlus
  rw [if_pos (show (43 :: p3).head? = some 43 from rfl)]
  rw [takeLine_no_newline (43 :: p3) (by simp [h3])]

lemma parsePlus_empty (b l1 l2 : List Nat) :
    parsePlus b l1 l2 [] = .error (.truncated b) := by
  unfold parsePlus
  rw [if_neg (by simp)]
  rw [if_pos rfl]

lemma parsePlus_no_plus (b l1 l2 r2 : List Nat) (hh : r2.head? ≠ some 43)
    (hne : r2 ≠ []) :
    parsePlus b l1 l2 r2 =
      .error (.noPlusSign (r2.takeWhile (fun x => x ≠ 10))) := by
  unfold parsePlus
  rw [if_neg hh, if_neg hne]

lemma parseQual_mismatch (b l1 l2 l3 l4 r4 : List Nat) (h4 : 10 ∉ l4)
    (hlen : l2.length ≠ l4.length) :
    parseQual b l1 l2 l3 (l4 ++ 10 :: r4) =
      .error (.lengthMismatch l2 l4) := by
  unfold parseQual
  rw [takeLine_append l4 r4 h4]
  show (if l2.length ≠ l4.length then _ else _) = _
  rw [if_pos hlen]

lemma parseQual_nonAscii (b l1 l2 l3 l4 r4 : List Nat) (h4 : 10 ∉ l4)
    (hlen : l2.length = l4.length)
    (hasc : allAscii (l1 ++ l2 ++ l3 ++ l4) = false) :
    parseQual b l1 l2 l3 (l4 ++ 10 :: r4) =
      .error (.nonAscii (l1 ++ l2 ++ l3 ++ l4)) := by
  unfold parseQual
  rw [takeLine_append l4 r4 h4]
  show (if l2.length ≠ l4.length then _ else _) = _
  rw [if_neg (by omega), if_pos hasc]

lemma parseQual_ok (b l1 l2 l3 l4 r4 : List Nat) (h4 : 10 ∉ l4)
    (hlen : l2.length = l4.length)
    (hasc : allAscii (l1 ++ l2 ++ l3 ++ l4) = true) :
    parseQual b l1 l2 l3 (l4 ++ 10 :: r4) =
      .ok (⟨l1.tail, l2, l4⟩, r4) := by
  unfold parseQual
  rw [takeLine_append l4 r4 h4]
  show (if l2.length ≠ l4.length then _ else _) = _
  rw [if_neg (by omega), if_neg (by rw [hasc]; simp)]

lemma parseQual_trunc (b l1 l2 l3 r3 : List Nat) (h : 10 ∉ r3) :
    parseQual b l1 l2 l3 r3 = .error (.truncated b) := by
  unfold parseQual
  rw [takeLine_no_newline r3 h]

lemma parseAll_of_parseRecord_error (b : List Nat) (hb : b ≠ [])
    (e : FastqError) (h : parseRecord b = .error e) :
    parseAll b = .error e := by
  cases b with
  | nil => exact absurd rfl hb
  | cons c rest =>
    unfold parseAll
    rw [List.length_cons]
    unfold parseAllAux
    rw [h]

/-- Claim C4: the FASTQ parser raises a typed parse error naming the
offending text whenever the name line does not start with `@`, the third
line does not start with `+`, the sequence and quality lengths differ, or a
byte is non-ASCII, and raises an incomplete-record error carrying the
partial record bytes whenever the stream ends inside a record — it never
silently skips or substitutes. -/
theorem fastq_parser_validation :
    (∀ (c : Nat) (rest : List Nat), c ≠ 64 →
      parseAll (c :: rest) =
        .error (.noAtSign ((c :: rest).takeWhile (fun x => x ≠ 10)))) ∧
    (∀ (n l2 r2 : List Nat), 10 ∉ n → 10 ∉ l2 →
      r2.head? ≠ some 43 → r2 ≠ [] →
      parseAll ((64 :: n) ++ 10 :: (l2 ++ 10 :: r2)) =
        .error (.noPlusSign (r2.takeWhile (fun x => x ≠ 10)))) ∧
    (∀ (n l2 p3 l4 r : List Nat), 10 ∉ n → 10 ∉ l2 → 10 ∉ p3 → 10 ∉ l4 →
      l2.length ≠ l4.length →
      parseAll ((64 :: n) ++
          10 :: (l2 ++ 10 :: ((43 :: p3) ++ 10 :: (l4 ++ 10 :: r)))) =
        .error (.lengthMismatch l2 l4)) ∧
    (∀ (n l2 p3 l4 r : List Nat), 10 ∉ n → 10 ∉ l2 → 10 ∉ p3 → 10 ∉ l4 →
      l2.length = l4.length →
      allAscii ((64 :: n) ++ l2 ++ (43 :: p3) ++ l4) = false →
      parseAll ((64 :: n) ++
          10 :: (l2 ++ 10 :: ((43 :: p3) ++ 10 :: (l4 ++ 10 :: r)))) =
        .error (.nonAscii ((64 :: n) ++ l2 ++ (43 :: p3) ++ l4))) ∧
    (∀ n : List Nat, 10 ∉ n →
      parseAll (64 :: n) = .error (.truncated (64 :: n))) ∧
    (∀ (n l2 : List Nat), 10 ∉ n → 10 ∉ l2 →
      parseAll ((64 :: n) ++ 10 :: l2) =
        .error (.truncated ((64 :: n) ++ 10 :: l2))) ∧
    (∀ (n l2 : List Nat), 10 ∉ n → 10 ∉ l2 →
      parseAll ((64 :: n) ++ 10 :: (l2 ++ [10])) =
        .error (.truncated ((64 :: n) ++ 10 :: (l2 ++ [10])))) ∧
    (∀ (n l2 p3 : List Nat), 10 ∉ n → 10 ∉ l2 → 10 ∉ p3 →
      parseAll ((64 :: n) ++ 10 :: (l2 ++ 10 :: (43 :: p3))) =
        .error (.truncated ((64 :: n) ++ 10 :: (l2 ++ 10 :: (43 :: p3))))) ∧
    (∀ (n l2 p3 l4 : List Nat), 10 ∉ n → 10 ∉ l2 → 10 ∉ p3 → 10 ∉ l4 →
      parseAll ((64 :: n) ++ 10 :: (l2 ++ 10 :: ((43 :: p3) ++ 10 :: l4))) =
        .error (.truncated
          ((64 :: n) ++ 10 :: (l2 ++ 10 :: ((43 :: p3) ++ 10 :: l4))))) := by
  refine ⟨?_, ?_, ?_, ?_, ?_, ?_, ?_, ?_, ?_⟩
  · intro c rest hc
    exact parseAll_of_parseRecord_error (c :: rest) (by simp) _
      (parseRecord_no_at c rest hc)
  · intro n l2 r2 hn h2 hh hne
    refine parseAll_of_parseRecord_error _ (by simp) _ ?_
    rw [parseRecord_at n (l2 ++ 10 :: r2) hn,
      parseSeq_line _ (64 :: n) l2 r2 h2,
      parsePlus_no_plus _ (64 :: n) l2 r2 hh hne]
  · intro n l2 p3 l4 r hn h2 h3 h4 hlen
    refine parseAll_of_parseRecord_error _ (by simp) _ ?_
    rw [parseRecord_at n _ hn, parseSeq_line _ (64 :: n) l2 _ h2,
      parsePlus_line _ (64 :: n) l2 p3 _ h3,
      parseQual_mismatch _ (64 :: n) l2 (43 :: p3) l4 r h4 hlen]
  · intro n l2 p3 l4 r hn h2 h3 h4 hlen hasc
    refine parseAll_of_parseRecord_error _ (by simp) _ ?_
    rw [parseRecord_at n _ hn, parseSeq_line _ (64 :: n) l2 _ h2,
      parsePlus_line _ (64 :: n) l2 p3 _ h3,
      parseQual_nonAscii _ (64 :: n) l2 (43 :: p3) l4 r h4 hlen hasc]
  · intro n hn
    exact parseAll_of_parseRecord_error _ (by simp) _
      (parseRecord_at_trunc n hn)
  · intro n l2 hn h2
    refine parseAll_of_parseRecord_error _ (by simp) _ ?_
    rw [parseRecord_at n l2 hn, parseSeq_trunc _ (64 :: n) l2 h2]
  · intro n l2 hn h2
    refine parseAll_of_parseRecord_error _ (by simp) _ ?_
    have hsplit : l2 ++ [10] = l2 ++ 10 :: ([] : List Nat) := rfl
    rw [parseRecord_at n (l2 ++ [10]) hn]
    rw [hsplit, parseSeq_line _ (64 :: n) l2 [] h2,
      parsePlus_empty _ (64 :: n) l2]
  · intro n l2 p3 hn h2 h3
    refine parseAll_of_parseRecord_error _ (by simp) _ ?_
    rw [parseRecord_at n _ hn, parseSeq_line _ (64 :: n) l2 _ h2,
      parsePlus_trunc _ (64 :: n) l2 p3 h3]
  · intro n l2 p3 l4 hn h2 h3 h4
    refine parseAll_of_parseRecord_error _ (by simp) _ ?_
    rw [parseRecord_at n _ hn, parseSeq_line _ (64 :: n) l2 _ h2,
      parsePlus_line _ (64 :: n) l2 p3 l4 h3,
      parseQual_trunc _ (64 :: n) l2 (43 :: p3) l4 h4]

/-- Witness for `fastq_parser_validation` at the concrete malformed streams
of the repository test suite. -/
theorem fastq_parser_validation_witness :
    parseAll (110 :: ("ot a record".toList.map Char.toNat)) =
      .error (.noAtSign ((110 :: ("ot a record".toList.map Char.toNat)
        ).takeWhile (fun x => x ≠ 10))) ∧
    parseAll ((64 :: [99]) ++
        10 :: ([65, 71, 65] ++ 10 :: ((43 :: []) ++
          10 :: ([71, 71] ++ 10 :: [])))) =
      .error (.lengthMismatch [65, 71, 65] [71, 71]) ∧
    parseAll (64 :: [120]) = .error (.truncated (64 :: [120])) :=
  ⟨fastq_parser_validation.1 110 ("ot a record".toList.map Char.toNat)
      (by decide),
   fastq_parser_validation.2.2.1 [99] [65, 71, 65] [] [71, 71] []
      (by decide) (by decide) (by decide) (by decide) (by decide),
   fastq_parser_validation.2.2.2.2.1 [120] (by decide)⟩

lemma parse_drain_aux : ∀ (fuel : Nat) (b : List Nat)
    (recs : List FastqRecord), parseAllAux fuel b = .ok recs →
    drainByOnes fuel b = .ok recs ∧
    readRecords recs.length b = .ok (recs, []) := by
  intro fuel
  induction fuel with
  | zero =>
    intro b recs h
    cases b with
    | nil =>
      have hr : recs = [] := by
        have h' : (Except.ok [] :
            Except FastqError (List FastqRecord)) = .ok recs := h
        exact (Except.ok.inj h').symm
      subst hr
      exact ⟨rfl, rfl⟩
    | cons c rest =>
      exact absurd h (by simp [parseAllAux])
  | succ fuel ih =>
    intro b recs h
    cases b with
    | nil =>
      have hr : recs = [] := by
        have h' : (Except.ok [] :
            Except FastqError (List FastqRecord)) = .ok recs := h
        exact (Except.ok.inj h').symm
      subst hr
      exact ⟨rfl, rfl⟩
    | cons c rest =>
      cases hp : parseRecord (c :: rest) with
      | error e =>
        rw [parseAllAux, hp] at h
        exact absurd h (by simp)
      | ok pr =>
        obtain ⟨r, remaining⟩ := pr
        cases hrest : parseAllAux fuel remaining with
        | error e =>
          rw [parseAllAux, hp] at h
          simp only [hrest] at h
          exact absurd h (by simp)
        | ok rs =>
          have hrecs : recs = r :: rs := by
            rw [parseAllAux, hp] at h
            simp only [hrest] at h
            exact (Except.ok.inj h).symm
          subst hrecs
          obtain ⟨ihd, ihr⟩ := ih remaining rs hrest
          constructor
          · have h1 : readRecords 1 (c :: rest) = .ok ([r], remaining) := by
              rw [readRecords, hp]
              rfl
            rw [drainByOnes, h1]
            simp only [ihd]
          · show readRecords (rs.length + 1) (c :: rest) = .ok (r :: rs, [])
            rw [readRecords, hp]
            simp only [ihr]

/-- Claim C5: on a well-formed stream, repeatedly pulling one record with
`read(1)` until exhaustion yields exactly the records of one full
iteration, in order, and pulling them all leaves no unconsumed bytes. -/
theorem fastq_read_one_equivalence (b : List Nat) (recs : List FastqRecord)
    (h : parseAll b = .ok recs) :
    drainByOnes b.length b = .ok recs ∧
    readRecords recs.length b = .ok (recs, []) :=
  parse_drain_aux b.length b recs h

/-- Witness for `fastq_read_one_equivalence` on a concrete two-record
stream. -/
theorem fastq_read_one_equivalence_witness :
    drainByOnes ("@a\nAC\n+\nHH\n@b\nGG\n+\nII\n".toList.map
        Char.toNat).length
      ("@a\nAC\n+\nHH\n@b\nGG\n+\nII\n".toList.map Char.toNat) =
      .ok [⟨[97], [65, 67], [72, 72]⟩, ⟨[98], [71, 71], [73, 73]⟩] ∧
    readRecords 2 ("@a\nAC\n+\nHH\n@b\nGG\n+\nII\n".toList.map
        Char.toNat) =
      .ok ([⟨[97], [65, 67], [72, 72]⟩, ⟨[98], [71, 71], [73, 73]⟩], []) :=
  fastq_read_one_equivalence
    ("@a\nAC\n+\nHH\n@b\nGG\n+\nII\n".toList.map Char.toNat)
    [⟨[97], [65, 67], [72, 72]⟩, ⟨[98], [71, 71], [73, 73]⟩] (by rfl)

/-! ## PerTileQuality -/

/-- Split a header on the colon character. -/
def splitOnColon : List Char → List (List Char)
  | [] => [[]]
  | c :: rest =>
    match splitOnColon rest with
    | [] => [[]]
    | f :: fs => if c = ':' then [] :: f :: fs else (c :: f) :: fs

/-- Decimal value of a digit string. -/
def decimalValue (l : List Char) : Nat :=
  l.foldl (fun a c => 10 * a + (c.toNat - 48)) 0

/-- Modelled from the spec: the tile id is the 5th colon-delimited field of
an `instr:run:flowcell:lane:tile:x:y ...` header; the header must have the
7-field Illumina shape and the tile field must be a non-empty decimal
number, otherwise parsing fails. -/
def parseTileId (header : List Char) : Option Nat :=
  let fields := splitOnColon header
  if fields.length < 7 then none
  else
    match fields.get? 4 with
    | none => none
    | some tf =>
      if tf ≠ [] ∧ tf.all Char.isDigit = true then some (decimalValue tf)
      else none

/-- Modelled from the spec: the per-quality error probability
`10 ^ (-q / 10)`. -/
noncomputable def errorRate (q : Nat) : ℝ :=
  (10 : ℝ) ^ (-(q : ℝ) / 10)

/-- Modelled from the spec: `PerTileQuality` (design section 4.4) lives in
the C extension module `_qc`, whose sources are not in this tree.  State:
the permanent skip reason (set at most once), read counter, maximum length,
and per-tile growable summed-error-probability and count arrays. -/
structure PerTileQuality where
  skipped_reason : Option (List Char)
  number_of_reads : Nat
  max_length : Nat
  tiles : List (Nat × List ℝ × List Nat)

/-- A freshly constructed tracker. -/
def PerTileQuality.mkInit : PerTileQuality := ⟨none, 0, 0, []⟩

/-- Add one read's per-position error probabilities into a summed array,
growing it as needed. -/
noncomputable def addErrors : List ℝ → List Nat → List ℝ
  | sums, [] => sums
  | [], q :: qr => errorRate q :: addErrors [] qr
  | e :: er, q :: qr => (e + errorRate q) :: addErrors er qr

/-- Increment the first `n` per-position counts, growing as needed. -/
def addCounts : List Nat → Nat → List Nat
  | cs, 0 => cs
  | [], n + 1 => 1 :: addCounts [] n
  | c :: cr, n + 1 => (c + 1) :: addCounts cr n

/-- Update (or create) one tile's accumulated arrays. -/
noncomputable def updateTiles (tile : Nat) (qs : List Nat) :
    List (Nat × List ℝ × List Nat) → List (Nat × List ℝ × List Nat)
  | [] => [(tile, addErrors [] qs, addCounts [] qs.length)]
  | (t, es, cs) :: rest =>
    if t = tile then (t, addErrors es qs, addCounts cs qs.length) :: rest
    else (t, es, cs) :: updateTiles tile qs rest

/-- Modelled from the spec: the human-readable skip reason recorded on the
first malformed header; it contains the offending header text. -/
def skipMessage (header : List Char) : List Char :=
  "Can not parse header: ".toList ++ header

/-- Modelled from the spec: `add_read` is a no-op once `skipped_reason` is
set; a header that fails the Illumina shape permanently records the skip
reason (the failing read itself is not counted); a parsed header updates the
tile arrays and counters. -/
noncomputable def PerTileQuality.add_read (s : PerTileQuality)
    (header : List Char) (qs : List Nat) : PerTileQuality :=
  if s.skipped_reason.isSome then s
  else
    match parseTileId header with
    | none => { s with skipped_reason := some (skipMessage header) }
    | some tile =>
      { s with number_of_reads := s.number_of_reads + 1,
               max_length := max s.max_length qs.length,
               tiles := updateTiles tile qs s.tiles }

/-- Fold `add_read` over (header, qualities) pairs. -/
noncomputable def PerTileQuality.addReads (s : PerTileQuality)
    (reads : List (List Char × List Nat)) : PerTileQuality :=
  reads.foldl (fun t r => t.add_read r.1 r.2) s

/-- Claim C6: the first `add_read` whose header fails the Illumina shape
sets `skipped_reason` to a string containing that header text, and from
then on every `add_read` is a complete no-op: the state (including
`skipped_reason`, `number_of_reads`, `max_length` and the per-tile arrays)
never changes again. -/
theorem per_tile_quality_skip_permanent (s : PerTileQuality)
    (header : List Char) (qs : List Nat)
    (hnone : s.skipped_reason = none)
    (hfail : parseTileId header = none) :
    ((s.add_read header qs).skipped_reason = some (skipMessage header) ∧
      ∃ pre post, skipMessage header = pre ++ header ++ post) ∧
    (∀ s2 : PerTileQuality, s2.skipped_reason.isSome = true →
      ∀ (h2 : List Char) (q2 : List Nat), s2.add_read h2 q2 = s2) ∧
    (∀ more : List (List Char × List Nat),
      (s.add_read header qs).addReads more = s.add_read header qs) := by
  have hnoop : ∀ s2 : PerTileQuality, s2.skipped_reason.isSome = true →
      ∀ (h2 : List Char) (q2 : List Nat), s2.add_read h2 q2 = s2 := by
    intro s2 hsome h2 q2
    unfold PerTileQuality.add_read
    rw [if_pos hsome]
  have hset : (s.add_read header qs).skipped_reason =
      some (skipMessage header) := by
    unfold PerTileQuality.add_read
    rw [if_neg (by rw [hnone]; simp)]
    rw [hfail]
  refine ⟨⟨hset, "Can not parse header: ".toList, [], by
    rw [skipMessage, List.append_nil]⟩, hnoop, ?_⟩
  intro more
  have hsome : (s.add_read header qs).skipped_reason.isSome = true := by
    rw [hset]; rfl
  induction more with
  | nil => rfl
  | cons r rest ih =>
    have hstep : (s.add_read header qs).add_read r.1 r.2 =
        s.add_read header qs := hnoop _ hsome r.1 r.2
    show ((s.add_read header qs).add_read r.1 r.2).addReads rest =
      s.add_read header qs
    rw [hstep]
    exact ih

/-- Witness for `per_tile_quality_skip_permanent` at the concrete failing
header of the repository test suite. -/
theorem per_tile_quality_skip_permanent_witness :
    (PerTileQuality.mkInit.add_read "SIMULATED_NAME".toList
        [10]).skipped_reason = some (skipMessage "SIMULATED_NAME".toList) ∧
    (PerTileQuality.mkInit.add_read "SIMULATED_NAME".toList
        [10]).add_read "SIM:1:FCX:1:15:6329:1045".toList [20] =
      PerTileQuality.mkInit.add_read "SIMULATED_NAME".toList [10] :=
  ⟨(per_tile_quality_skip_permanent PerTileQuality.mkInit
      "SIMULATED_NAME".toList [10] rfl (by decide)).1.1,
   (per_tile_quality_skip_permanent PerTileQuality.mkInit
      "SIMULATED_NAME".toList [10] rfl (by decide)).2.1 _
      (by rw [(per_tile_quality_skip_permanent PerTileQuality.mkInit
          "SIMULATED_NAME".toList [10] rfl (by decide)).1.1]; rfl)
      "SIM:1:FCX:1:15:6329:1045".toList [20]⟩

/-! ## QCMetrics (per-read quality histogram) -/

/-- The highest representable phred value; the error-rate table has
`PHRED_MAX + 1 = 94` entries. -/
def PHRED_MAX : Nat := 93

/-- Modelled from the spec: lookup in the precomputed 94-entry
`error_rate(q) = 10 ^ (-q / 10)` table (clamped at the last entry). -/
noncomputable def errorRateTable (q : Nat) : ℝ :=
  errorRate (min q PHRED_MAX)

/-- Modelled from the spec: per-read mean error probability from the
table. -/
noncomputable def readMeanError (qs : List Nat) : ℝ :=
  (qs.map errorRateTable).sum / qs.length

/-- Modelled from the spec: conversion of the mean error probability back
to a phred score, `-10 · log10 (mean)`. -/
noncomputable def readPhred (qs : List Nat) : ℝ :=
  -10 * Real.logb 10 (readMeanError qs)

/-- Modelled from the spec: the per-read quality histogram bucket — the
rounded phred value of the mean error probability (clamped to the histogram
size). -/
noncomputable def phredIndex (qs : List Nat) : Nat :=
  min (round (readPhred qs)).toNat PHRED_MAX

/-- Modelled from the spec: the slice of `QCMetrics` (design section 4.2)
that the per-read quality histogram claim is about — the C extension module
`_qc` holding the full implementation is not in this tree. -/
structure QCMetrics where
  number_of_reads : Nat
  phred_histogram : List Nat

/-- A freshly constructed collector: a zeroed 94-bucket histogram. -/
def QCMetrics.mkInit : QCMetrics := ⟨0, List.replicate (PHRED_MAX + 1) 0⟩

/-- Modelled from the spec: `add_read` increments the histogram at the
read's rounded mean phred value, once per read. -/
noncomputable def QCMetrics.add_read (m : QCMetrics) (qs : List Nat) :
    QCMetrics :=
  ⟨m.number_of_reads + 1, setInc m.phred_histogram (phredIndex qs)⟩

/-- Fold `add_read` over a list of reads (their phred quality lists). -/
noncomputable def QCMetrics.addReads (m : QCMetrics)
    (reads : List (List Nat)) : QCMetrics :=
  reads.foldl QCMetrics.add_read m

lemma qc_histogram_invariant (reads : List (List Nat)) :
    ∀ m : QCMetrics, m.phred_histogram.sum = m.number_of_reads →
      m.phred_histogram.length = PHRED_MAX + 1 →
      (m.addReads reads).phred_histogram.sum =
        (m.addReads reads).number_of_reads ∧
      (m.addReads reads).phred_histogram.length = PHRED_MAX + 1 := by
  induction reads with
  | nil => intro m h1 h2; exact ⟨h1, h2⟩
  | cons qs rest ih =>
    intro m h1 h2
    have hidx : phredIndex qs < m.phred_histogram.length := by
      rw [h2]
      have : phredIndex qs ≤ PHRED_MAX := min_le_right _ _
      omega
    have hstep1 : (m.add_read qs).phred_histogram.sum =
        (m.add_read qs).number_of_reads := by
      show (setInc m.phred_histogram (phredIndex qs)).sum =
        m.number_of_reads + 1
      rw [sum_setInc _ _ hidx, h1]
    have hstep2 : (m.add_read qs).phred_histogram.length = PHRED_MAX + 1 := by
      show (setInc m.phred_histogram (phredIndex qs)).length = PHRED_MAX + 1
      rw [length_setInc, h2]
    exact ih (m.add_read qs) hstep1 hstep2

lemma phredIndex_replicate (q n : Nat) (hq : q ≤ PHRED_MAX) :
    phredIndex (List.replicate (n + 1) q) = q := by
  have hne : ((n + 1 : Nat) : ℝ) ≠ 0 := Nat.cast_ne_zero.mpr (Nat.succ_ne_zero n)
  have htab : errorRateTable q = errorRate q := by
    unfold errorRateTable
    rw [min_eq_left hq]
  have hmean : readMeanError (List.replicate (n + 1) q) = errorRate q := by
    unfold readMeanError
    rw [List.map_replicate, List.sum_replicate, List.length_replicate,
      nsmul_eq_mul, htab, mul_comm, mul_div_assoc, div_self hne, mul_one]
  unfold phredIndex readPhred
  rw [hmean]
  unfold errorRate
  rw [Real.logb_rpow (by norm_num) (by norm_num)]
  have hval : (-10 : ℝ) * (-(q : ℝ) / 10) = (q : ℝ) := by ring
  rw [hval, round_natCast, Int.toNat_natCast, min_eq_left hq]

/-- Claim C7: every `add_read` makes exactly one increment of the per-read
quality histogram, at the bucket given by rounding
`-10 · log10` of the table-computed mean error probability, so the
histogram always sums to the number of reads; on a constant-quality read
the bucket is the quality value itself. -/
theorem qc_metrics_phred_histogram :
    (∀ reads : List (List Nat),
      (QCMetrics.mkInit.addReads reads).phred_histogram.sum =
        (QCMetrics.mkInit.addReads reads).number_of_reads ∧
      (QCMetrics.mkInit.addReads reads).phred_histogram.length =
        PHRED_MAX + 1) ∧
    (∀ (m : QCMetrics) (qs : List Nat),
      (m.add_read qs).phred_histogram =
        setInc m.phred_histogram
          (min (round (-10 * Real.logb 10 (readMeanError qs))).toNat
            PHRED_MAX) ∧
      (m.add_read qs).number_of_reads = m.number_of_reads + 1) ∧
    (∀ q n : Nat, q ≤ PHRED_MAX →
      phredIndex (List.replicate (n + 1) q) = q) := by
  refine ⟨?_, ?_, phredIndex_replicate⟩
  · intro reads
    exact qc_histogram_invariant reads QCMetrics.mkInit
      (by simp [QCMetrics.mkInit]) (by simp [QCMetrics.mkInit])
  · intro m qs
    exact ⟨rfl, rfl⟩

/-- Witness for `qc_metrics_phred_histogram`: a two-base read of constant
quality 30 is counted in bucket 30. -/
theorem qc_metrics_phred_histogram_witness :
    phredIndex (List.replicate 2 30) = 30 :=
  qc_metrics_phred_histogram.2.2 30 1 (by decide)

end Sequali
